import Mathlib

/-!
Shallow embedding of `src/utils/optimizers.py` (classes `GradientDescent`,
`Momentum`, `Adam`) over exact rational arithmetic.

Numeric arrays become flat lists of rationals; Python dicts (`layer.params`,
`layer.grads`, the moment dictionaries `v` and `s`) become association lists
with Python-dict semantics for lookup (first matching key) and assignment
(replace in place when the key is present, append otherwise).  NumPy's
elementwise `np.sqrt` is a parameter `sq : ℚ → ℚ` of the Adam embedding.
Failed dictionary lookups (Python `KeyError` / `IndexError`) are modelled by
`Option`.

The `regularizers` module is external to the file under verification: the
optimizers only test `isinstance(regularizer, regularizers.L2)` and call
`regularizer.compute_term_delta(param, m)` as a black box, so a regularizer
is embedded as `none` (Python `None`), an `L2` carrying an arbitrary
`compute_term_delta` function, or some `other` unrecognized object.
-/

/-- A numeric array (NumPy tensor, flattened): its shape is its length. -/
abbrev Arr : Type := List ℚ

/-- A Python dict from string keys to arrays, as an ordered association list. -/
abbrev Assoc : Type := List (String × Arr)

/-- Python dict read `d[k]`: first entry with key `k`, `none` on `KeyError`. -/
def dget (d : Assoc) (k : String) : Option Arr :=
  match d with
  | [] => Option.none
  | (k', a) :: rest => if k' = k then some a else dget rest k

/-- Python dict write `d[k] = a`: replace the value in place when the key is
present, append the binding otherwise. -/
def dset (d : Assoc) (k : String) (a : Arr) : Assoc :=
  match d with
  | [] => [(k, a)]
  | (k', b) :: rest => if k' = k then (k, a) :: rest else (k', b) :: dset rest k a

/-- Elementwise sum of two arrays (NumPy `+` on same-shape arrays). -/
def vadd (a b : Arr) : Arr := List.zipWith (fun x y => x + y) a b

/-- Elementwise difference of two arrays (NumPy `-` on same-shape arrays). -/
def vsub (a b : Arr) : Arr := List.zipWith (fun x y => x - y) a b

/-- Scalar times array (NumPy broadcast `c * a`). -/
def smul (c : ℚ) (a : Arr) : Arr := a.map (fun x => c * x)

/-- Array divided elementwise by a scalar (NumPy broadcast `a / c`). -/
def vdivS (a : Arr) (c : ℚ) : Arr := a.map (fun x => x / c)

/-- Elementwise square (NumPy `np.square`). -/
def vsq (a : Arr) : Arr := a.map (fun x => x * x)

/-- Embeds `np.zeros(shape)` for a flat shape `n`. -/
def zeros (n : ℕ) : Arr := List.replicate n 0

/-- The optional `regularizer` argument of `update_params`.  `L2` is the
recognized kind (`isinstance(regularizer, regularizers.L2)`); it carries its
externally defined `compute_term_delta(param, m)` as a function.  `other`
is any supplied object of an unrecognized kind; `none` is Python `None`. -/
inductive Regularizer : Type where
  | none : Regularizer
  | L2 (compute_term_delta : Arr → ℚ → Arr) : Regularizer
  | other : Regularizer

/-- A layer as the optimizers see it: its `params` and `grads` dicts. -/
structure Layer : Type where
  params : Assoc
  grads : Assoc
deriving DecidableEq

/-- The weight-decay block shared verbatim by the three `update_params`
methods:

```
if k is 'W':
    if isinstance(regularizer, regularizers.L2):
        layer.params[k] -= self.lr * regularizer.compute_term_delta(param, m)
```

`pm` is the value of the local variable `param` at the moment of the call.
`param` was bound to the array object `layer.params[k]` before the gradient
update, but the in-place NumPy `-=` mutates that very object, so at this
point `param` denotes the already-updated array, and `pm` below is applied
to the updated value. -/
def withDecay (lr m : ℚ) (reg : Regularizer) (k : String) (pm : Arr) : Arr :=
  if k = "W" then
    match reg with
    | Regularizer.L2 f => vsub pm (smul lr (f pm m))
    | _ => pm
  else pm

namespace GradientDescent

/-- The body of the inner loop of `GradientDescent.update_params` for one
parameter `(k, p)`: read `grad = layer.grads['d' + k]`, do
`layer.params[k] -= lr * grad` in place, then the weight-decay block (whose
`param` argument, by aliasing, is the updated array `p1`). -/
def step (lr : ℚ) (grads : Assoc) (m : ℚ) (reg : Regularizer) (k : String)
    (p : Arr) : Option Arr :=
  match dget grads ("d" ++ k) with
  | Option.none => Option.none
  | some grad =>
    let p1 := vsub p (smul lr grad)
    some (withDecay lr m reg k p1)

/-- Loop `for k in layer.params: ...` over the parameter dict. -/
def stepEntries (lr : ℚ) (grads : Assoc) (m : ℚ) (reg : Regularizer) :
    Assoc → Option Assoc
  | [] => some []
  | (k, p) :: rest =>
    match step lr grads m reg k p, stepEntries lr grads m reg rest with
    | some p2, some ps => some ((k, p2) :: ps)
    | _, _ => Option.none

/-- One layer of `GradientDescent.update_params`. -/
def stepLayer (lr m : ℚ) (reg : Regularizer) (L : Layer) : Option Layer :=
  match stepEntries lr L.grads m reg L.params with
  | some ps => some { params := ps, grads := L.grads }
  | Option.none => Option.none

/-- Method `GradientDescent.update_params(self, layers, m, regularizer=None)`. -/
def update_params (lr m : ℚ) (reg : Regularizer) :
    List Layer → Option (List Layer)
  | [] => some []
  | L :: ls =>
    match stepLayer lr m reg L, update_params lr m reg ls with
    | some L', some ls' => some (L' :: ls')
    | _, _ => Option.none

end GradientDescent

/-- The inner loop body of `init_params` (identical in `Momentum` and
`Adam`): `for k in layer.params: v['d' + k] = np.zeros(layer.params[k].shape)`,
iterated in the dict's insertion order. -/
def initV (params : Assoc) : Assoc :=
  params.map (fun kp => ("d" ++ kp.1, zeros kp.2.length))

namespace Momentum

/-- Method `Momentum.init_params(self, layers)`: the per-layer zero velocity dicts
`self.layer_v`, indexed by layer position. -/
def init_params (layers : List Layer) : List Assoc :=
  layers.map (fun L => initV L.params)

/-- The body of the inner loop of `Momentum.update_params` for one parameter
`(k, p)` once `grad = layer.grads['d' + k]` and the current velocity entry
`vOld = v['d' + k]` have been read: the new stored velocity, the
bias-corrected velocity, the in-place parameter update, and the weight-decay
block (whose `param` argument, by aliasing, is the updated array `p1`).
Returns the new parameter value and the new stored velocity `v['d' + k]`. -/
def step (lr beta : ℚ) (t : ℕ) (m : ℚ) (reg : Regularizer) (k : String)
    (p grad vOld : Arr) : Arr × Arr :=
  let vNew := vadd (smul beta vOld) (smul (1 - beta) grad)
  let vCorr := vdivS vNew (1 - beta ^ t)
  let p1 := vsub p (smul lr vCorr)
  (withDecay lr m reg k p1, vNew)

/-- Loop `for k in layer.params: ...` of `Momentum.update_params`, threading the
in-place mutation of the velocity dict `v`. -/
def stepEntries (lr beta : ℚ) (t : ℕ) (grads : Assoc) (m : ℚ)
    (reg : Regularizer) : Assoc → Assoc → Option (Assoc × Assoc)
  | [], v => some ([], v)
  | (k, p) :: rest, v =>
    match dget grads ("d" ++ k), dget v ("d" ++ k) with
    | some grad, some vOld =>
      let r := step lr beta t m reg k p grad vOld
      match stepEntries lr beta t grads m reg rest (dset v ("d" ++ k) r.2) with
      | some (ps, v') => some ((k, r.1) :: ps, v')
      | Option.none => Option.none
    | _, _ => Option.none

/-- One layer of `Momentum.update_params`, with its velocity dict
`v = self.layer_v[l]`. -/
def stepLayer (lr beta : ℚ) (t : ℕ) (m : ℚ) (reg : Regularizer) (L : Layer)
    (v : Assoc) : Option (Layer × Assoc) :=
  match stepEntries lr beta t L.grads m reg L.params v with
  | some (ps, v') => some ({ params := ps, grads := L.grads }, v')
  | Option.none => Option.none

/-- Method `Momentum.update_params(self, layers, t, m, regularizer=None)`: walks the
layers in order against `self.layer_v`; a missing `self.layer_v[l]` is the
`IndexError` of an uninitialized optimizer. Returns the updated layers and
the updated `self.layer_v`. -/
def update_params (lr beta : ℚ) (t : ℕ) (m : ℚ) (reg : Regularizer) :
    List Layer → List Assoc → Option (List Layer × List Assoc)
  | [], vs => some ([], vs)
  | _ :: _, [] => Option.none
  | L :: ls, v :: vs =>
    match stepLayer lr beta t m reg L v, update_params lr beta t m reg ls vs with
    | some (L', v'), some (ls', vs') => some (L' :: ls', v' :: vs')
    | _, _ => Option.none

end Momentum

namespace Adam

/-- Method `Adam.init_params(self, layers)`: the per-layer zero dicts
`self.layer_v` (first moment) and `self.layer_s` (second moment). -/
def init_params (layers : List Layer) : List Assoc × List Assoc :=
  (layers.map (fun L => initV L.params), layers.map (fun L => initV L.params))

/-- The body of the inner loop of `Adam.update_params` for one parameter
`(k, p)` once `grad`, `vOld = v['d' + k]` and `sOld = s['d' + k]` have been
read.  `sq` embeds the elementwise `np.sqrt`.  The weight-decay block's
`param` argument, by aliasing, is the updated array `p1`.  Returns the new
parameter value, the new `v['d' + k]` and the new `s['d' + k]`. -/
def step (lr beta1 beta2 eps : ℚ) (sq : ℚ → ℚ) (t : ℕ) (m : ℚ)
    (reg : Regularizer) (k : String) (p grad vOld sOld : Arr) :
    Arr × Arr × Arr :=
  let vNew := vadd (smul beta1 vOld) (smul (1 - beta1) grad)
  let sNew := vadd (smul beta2 sOld) (smul (1 - beta2) (vsq grad))
  let vCorr := vdivS vNew (1 - beta1 ^ t)
  let sCorr := vdivS sNew (1 - beta2 ^ t)
  let p1 := vsub p (List.zipWith (fun vi si => lr * vi / (sq si + eps)) vCorr sCorr)
  (withDecay lr m reg k p1, vNew, sNew)

/-- Loop `for k in layer.params: ...` of `Adam.update_params`, threading the
in-place mutation of the moment dicts `v` and `s`. -/
def stepEntries (lr beta1 beta2 eps : ℚ) (sq : ℚ → ℚ) (t : ℕ) (grads : Assoc)
    (m : ℚ) (reg : Regularizer) : Assoc → Assoc → Assoc →
    Option (Assoc × Assoc × Assoc)
  | [], v, s => some ([], v, s)
  | (k, p) :: rest, v, s =>
    match dget grads ("d" ++ k), dget v ("d" ++ k), dget s ("d" ++ k) with
    | some grad, some vOld, some sOld =>
      let r := step lr beta1 beta2 eps sq t m reg k p grad vOld sOld
      match stepEntries lr beta1 beta2 eps sq t grads m reg rest
          (dset v ("d" ++ k) r.2.1) (dset s ("d" ++ k) r.2.2) with
      | some (ps, v', s') => some ((k, r.1) :: ps, v', s')
      | Option.none => Option.none
    | _, _, _ => Option.none

/-- One layer of `Adam.update_params`, with its moment dicts
`v = self.layer_v[l]` and `s = self.layer_s[l]`. -/
def stepLayer (lr beta1 beta2 eps : ℚ) (sq : ℚ → ℚ) (t : ℕ) (m : ℚ)
    (reg : Regularizer) (L : Layer) (v s : Assoc) :
    Option (Layer × Assoc × Assoc) :=
  match stepEntries lr beta1 beta2 eps sq t L.grads m reg L.params v s with
  | some (ps, v', s') => some ({ params := ps, grads := L.grads }, v', s')
  | Option.none => Option.none

/-- Method `Adam.update_params(self, layers, t, m, regularizer=None)`: walks the
layers in order against `self.layer_v` and `self.layer_s`.  Returns the
updated layers and the updated moment lists. -/
def update_params (lr beta1 beta2 eps : ℚ) (sq : ℚ → ℚ) (t : ℕ) (m : ℚ)
    (reg : Regularizer) : List Layer → List Assoc → List Assoc →
    Option (List Layer × List Assoc × List Assoc)
  | [], vs, ss => some ([], vs, ss)
  | _ :: _, [], _ => Option.none
  | _ :: _, _ :: _, [] => Option.none
  | L :: ls, v :: vs, s :: ss =>
    match stepLayer lr beta1 beta2 eps sq t m reg L v s,
        update_params lr beta1 beta2 eps sq t m reg ls vs ss with
    | some (L', v', s'), some (ls', vs', ss') =>
      some (L' :: ls', v' :: vs', s' :: ss')
    | _, _ => Option.none

end Adam

namespace SpecModel

/-- Modelled from the spec: spec.md §4.1 step 3 prescribes
`params[k] -= learning_rate * regularizer.compute_term_delta(original_param_value, batch_size)`
"where `original_param_value` is the parameter's value *before* step 2's
update (captured prior to mutation)".  Here the decay delta is computed from
the pre-update value `p0` while the subtraction applies to the updated value
`p1` — the behavior the spec states, written to be compared against
`withDecay`, which reflects what the code actually does after the in-place
aliasing. -/
def withDecayPre (lr m : ℚ) (reg : Regularizer) (k : String) (p0 p1 : Arr) :
    Arr :=
  if k = "W" then
    match reg with
    | Regularizer.L2 f => vsub p1 (smul lr (f p0 m))
    | _ => p1
  else p1

/-- Modelled from the spec: the Plain per-parameter update of spec.md §4.1,
steps 1–3, with the decay term computed from the pre-update value. -/
def gdStep (lr : ℚ) (grads : Assoc) (m : ℚ) (reg : Regularizer) (k : String)
    (p : Arr) : Option Arr :=
  match dget grads ("d" ++ k) with
  | Option.none => Option.none
  | some grad =>
    let p1 := vsub p (smul lr grad)
    some (withDecayPre lr m reg k p p1)

/-- Modelled from the spec: spec.md §4.1 over one layer's parameter dict. -/
def gdStepEntries (lr : ℚ) (grads : Assoc) (m : ℚ) (reg : Regularizer) :
    Assoc → Option Assoc
  | [] => some []
  | (k, p) :: rest =>
    match gdStep lr grads m reg k p, gdStepEntries lr grads m reg rest with
    | some p2, some ps => some ((k, p2) :: ps)
    | _, _ => Option.none

/-- Modelled from the spec: spec.md §4.1 over one layer. -/
def gdStepLayer (lr m : ℚ) (reg : Regularizer) (L : Layer) : Option Layer :=
  match gdStepEntries lr L.grads m reg L.params with
  | some ps => some { params := ps, grads := L.grads }
  | Option.none => Option.none

end SpecModel

/-- The external regularizer contract stated in spec.md §3: "given a
parameter array and batch size, produces a delta array of the same shape".
Only the `L2` kind carries a delta function; for the other kinds there is
nothing to require. -/
def Regularizer.shapeOK : Regularizer → Prop
  | Regularizer.L2 f => ∀ a c, (f a c).length = a.length
  | _ => True

/-! ### Helper lemmas about the dictionary and array operations -/

theorem dkey_inj {a b : String} (h : "d" ++ a = "d" ++ b) : a = b := by
  have h2 := congrArg String.data h
  simp only [String.data_append] at h2
  exact String.ext (List.append_cancel_left h2)

theorem dget_dset_ne (d : Assoc) (k k' : String) (a : Arr) (h : k ≠ k') :
    dget (dset d k a) k' = dget d k' := by
  induction d with
  | nil => simp [dget, dset, h]
  | cons kv rest ih =>
    by_cases hk : kv.1 = k
    · simp [dset, hk, dget, h]
    · simp [dset, hk, dget]
      by_cases hk' : kv.1 = k'
      · simp [hk']
      · simp [hk', ih]

theorem dget_dset_self (d : Assoc) (k : String) (a : Arr) :
    dget (dset d k a) k = some a := by
  induction d with
  | nil => simp [dget, dset]
  | cons kv rest ih =>
    by_cases hk : kv.1 = k
    · simp [dset, hk, dget]
    · simp [dset, hk, dget, ih]

theorem dget_initV (ps : Assoc) (k : String) (p : Arr)
    (h : dget ps k = some p) :
    dget (initV ps) ("d" ++ k) = some (zeros p.length) := by
  induction ps with
  | nil => simp [dget] at h
  | cons kv rest ih =>
    by_cases hk : kv.1 = k
    · simp [dget, hk] at h
      simp [initV, dget, hk, h]
    · have hne : ¬ ("d" ++ kv.1 = "d" ++ k) := fun hc => hk (dkey_inj hc)
      simp [dget, hk] at h
      simpa [initV, dget, hne] using ih h

theorem smul_zeros (c : ℚ) (n : ℕ) : smul c (zeros n) = zeros n := by
  simp [smul, zeros, List.map_replicate]

theorem vadd_zeros (n : ℕ) (l : Arr) : vadd (zeros n) l = l.take n := by
  induction n generalizing l with
  | zero => simp [vadd, zeros]
  | succ n ih =>
    cases l with
    | nil => simp [vadd, zeros]
    | cons x xs => simpa [vadd, zeros, List.replicate_succ] using ih xs

theorem vdivS_take (l : Arr) (c : ℚ) (n : ℕ) :
    vdivS (l.take n) c = (vdivS l c).take n := by
  simp [vdivS, List.map_take]

theorem vdivS_smul_cancel (c : ℚ) (h : c ≠ 0) (l : Arr) :
    vdivS (smul c l) c = l := by
  simp only [vdivS, smul, List.map_map]
  have h1 : ((fun x : ℚ => x / c) ∘ fun x : ℚ => c * x) = fun x : ℚ => x := by
    funext x
    simp only [Function.comp]
    field_simp
  simp [h1]

theorem vsub_take (p l : Arr) : vsub p (l.take p.length) = vsub p l := by
  induction p generalizing l with
  | nil => simp [vsub]
  | cons x xs ih =>
    cases l with
    | nil => simp [vsub]
    | cons y ys => simpa [vsub] using ih ys

theorem smul_take (c : ℚ) (l : Arr) (n : ℕ) :
    smul c (l.take n) = (smul c l).take n := by
  simp [smul, List.map_take]

theorem dget_of_mem_nodup (ps : Assoc) (kp : String × Arr)
    (hnd : (ps.map Prod.fst).Nodup) (hm : kp ∈ ps) :
    dget ps kp.1 = some kp.2 := by
  induction ps with
  | nil => cases hm
  | cons hd rest ih =>
    rcases List.mem_cons.mp hm with hm | hm
    · simp [hm, dget]
    · have hne : hd.1 ≠ kp.1 := by
        intro hc
        have : kp.1 ∈ rest.map Prod.fst := List.mem_map_of_mem Prod.fst hm
        rw [← hc] at this
        exact (List.nodup_cons.mp hnd).1 this
      simp only [dget, hne, if_false]
      exact ih (List.nodup_cons.mp hnd).2 hm

/-! ### Lookup characterization of the three update loops -/

theorem gd_stepEntries_lookup (lr m : ℚ) (reg : Regularizer)
    (grads : Assoc) (ps ps' : Assoc) (k : String) (p g : Arr)
    (h : GradientDescent.stepEntries lr grads m reg ps = some ps')
    (hp : dget ps k = some p) (hg : dget grads ("d" ++ k) = some g) :
    dget ps' k = some (withDecay lr m reg k (vsub p (smul lr g))) := by
  induction ps generalizing ps' with
  | nil => simp [dget] at hp
  | cons hd rest ih =>
    obtain ⟨k0, p0⟩ := hd
    simp only [GradientDescent.stepEntries] at h
    cases hstep : GradientDescent.step lr grads m reg k0 p0 with
    | none => rw [hstep] at h; exact absurd h (by simp)
    | some p2 =>
      cases hrest : GradientDescent.stepEntries lr grads m reg rest with
      | none => rw [hstep, hrest] at h; exact absurd h (by simp)
      | some ps1 =>
        rw [hstep, hrest] at h
        have hps' : ps' = (k0, p2) :: ps1 := by
          simpa using h.symm
        subst hps'
        by_cases hk : k0 = k
        · subst hk
          simp only [dget, if_pos rfl] at hp ⊢
          have hp0 : p0 = p := by simpa using hp
          subst hp0
          simp only [GradientDescent.step, hg] at hstep
          simpa using hstep.symm
        · simp only [dget, if_neg hk] at hp ⊢
          exact ih ps1 hrest hp

theorem gd_stepLayer_lookup (lr m : ℚ) (reg : Regularizer) (L out : Layer)
    (k : String) (p g : Arr)
    (h : GradientDescent.stepLayer lr m reg L = some out)
    (hp : dget L.params k = some p) (hg : dget L.grads ("d" ++ k) = some g) :
    dget out.params k = some (withDecay lr m reg k (vsub p (smul lr g)))
    ∧ out.grads = L.grads := by
  simp only [GradientDescent.stepLayer] at h
  cases he : GradientDescent.stepEntries lr L.grads m reg L.params with
  | none => rw [he] at h; exact absurd h (by simp)
  | some ps =>
    rw [he] at h
    have hout : out = { params := ps, grads := L.grads } := by simpa using h.symm
    subst hout
    exact ⟨gd_stepEntries_lookup lr m reg L.grads L.params ps k p g he hp hg, rfl⟩

theorem mom_stepEntries_state_frame (lr beta : ℚ) (t : ℕ) (grads : Assoc)
    (m : ℚ) (reg : Regularizer) (entries : Assoc) (v ps' v' : Assoc)
    (key : String)
    (h : Momentum.stepEntries lr beta t grads m reg entries v = some (ps', v'))
    (hk : ∀ kp ∈ entries, "d" ++ kp.1 ≠ key) :
    dget v' key = dget v key := by
  induction entries generalizing v ps' with
  | nil =>
    simp only [Momentum.stepEntries] at h
    have : v' = v := by simpa using (congrArg Prod.snd (Option.some.inj h)).symm
    rw [this]
  | cons hd rest ih =>
    obtain ⟨k0, p0⟩ := hd
    simp only [Momentum.stepEntries] at h
    cases hg0 : dget grads ("d" ++ k0) with
    | none => rw [hg0] at h; exact absurd h (by simp)
    | some g0 =>
      cases hv0 : dget v ("d" ++ k0) with
      | none => rw [hg0, hv0] at h; exact absurd h (by simp)
      | some v0 =>
        simp only [hg0, hv0] at h
        cases hrest : Momentum.stepEntries lr beta t grads m reg rest
            (dset v ("d" ++ k0) (Momentum.step lr beta t m reg k0 p0 g0 v0).2) with
        | none => rw [hrest] at h; exact absurd h (by simp)
        | some r =>
          obtain ⟨ps1, v1⟩ := r
          rw [hrest] at h
          have hv' : v' = v1 := by simpa using (congrArg Prod.snd (Option.some.inj h)).symm
          subst hv'
          have step1 := ih (dset v ("d" ++ k0) (Momentum.step lr beta t m reg k0 p0 g0 v0).2)
            ps1 hrest (fun kp hm => hk kp (List.mem_cons_of_mem _ hm))
          rw [step1]
          exact dget_dset_ne v ("d" ++ k0) key _ (hk ⟨k0, p0⟩ (List.mem_cons_self _ _))

theorem mom_stepEntries_lookup (lr beta : ℚ) (t : ℕ) (grads : Assoc) (m : ℚ)
    (reg : Regularizer) (entries : Assoc) (v ps' v' : Assoc) (k : String)
    (p g vOld : Arr)
    (h : Momentum.stepEntries lr beta t grads m reg entries v = some (ps', v'))
    (hnd : (entries.map Prod.fst).Nodup)
    (hp : dget entries k = some p) (hg : dget grads ("d" ++ k) = some g)
    (hv : dget v ("d" ++ k) = some vOld) :
    dget ps' k = some (Momentum.step lr beta t m reg k p g vOld).1
    ∧ dget v' ("d" ++ k) = some (Momentum.step lr beta t m reg k p g vOld).2 := by
  induction entries generalizing v ps' with
  | nil => simp [dget] at hp
  | cons hd rest ih =>
    obtain ⟨k0, p0⟩ := hd
    simp only [Momentum.stepEntries] at h
    cases hg0 : dget grads ("d" ++ k0) with
    | none => rw [hg0] at h; exact absurd h (by simp)
    | some g0 =>
      cases hv0 : dget v ("d" ++ k0) with
      | none => rw [hg0, hv0] at h; exact absurd h (by simp)
      | some v0 =>
        simp only [hg0, hv0] at h
        cases hrest : Momentum.stepEntries lr beta t grads m reg rest
            (dset v ("d" ++ k0) (Momentum.step lr beta t m reg k0 p0 g0 v0).2) with
        | none => rw [hrest] at h; exact absurd h (by simp)
        | some r =>
          obtain ⟨ps1, v1⟩ := r
          rw [hrest] at h
          have hps' : ps' = (k0, (Momentum.step lr beta t m reg k0 p0 g0 v0).1) :: ps1 := by
            simpa using (congrArg Prod.fst (Option.some.inj h)).symm
          have hv' : v' = v1 := by
            simpa using (congrArg Prod.snd (Option.some.inj h)).symm
          subst hps'; subst hv'
          by_cases hk : k0 = k
          · subst hk
            simp only [dget, if_pos rfl] at hp
            have hp0 : p0 = p := by simpa using hp
            subst hp0
            have hg0' : g0 = g := by rw [hg0] at hg; simpa using hg
            have hv0' : v0 = vOld := by rw [hv0] at hv; simpa using hv
            subst hg0'; subst hv0'
            constructor
            · simp [dget]
            · have hfr := mom_stepEntries_state_frame lr beta t grads m reg rest
                (dset v ("d" ++ k0) (Momentum.step lr beta t m reg k0 p0 g0 v0).2)
                ps1 v' ("d" ++ k0) hrest ?_
              · rw [hfr, dget_dset_self]
              · intro kp hm hc
                have : kp.1 ∈ rest.map Prod.fst := List.mem_map_of_mem Prod.fst hm
                rw [dkey_inj hc] at this
                exact (List.nodup_cons.mp hnd).1 this
          · simp only [dget, if_neg hk] at hp
            have hvd : dget (dset v ("d" ++ k0) (Momentum.step lr beta t m reg k0 p0 g0 v0).2)
                ("d" ++ k) = some vOld := by
              rw [dget_dset_ne]
              · exact hv
              · intro hc
                exact hk (dkey_inj hc)
            have := ih (dset v ("d" ++ k0) (Momentum.step lr beta t m reg k0 p0 g0 v0).2)
              ps1 hrest (List.nodup_cons.mp hnd).2 hp hvd
            exact ⟨by simpa [dget, hk] using this.1, this.2⟩

theorem adam_stepEntries_state_frame (lr beta1 beta2 eps : ℚ) (sq : ℚ → ℚ)
    (t : ℕ) (grads : Assoc) (m : ℚ) (reg : Regularizer) (entries : Assoc)
    (v s ps' v' s' : Assoc) (key : String)
    (h : Adam.stepEntries lr beta1 beta2 eps sq t grads m reg entries v s
      = some (ps', v', s'))
    (hk : ∀ kp ∈ entries, "d" ++ kp.1 ≠ key) :
    dget v' key = dget v key ∧ dget s' key = dget s key := by
  induction entries generalizing v s ps' with
  | nil =>
    simp only [Adam.stepEntries, Option.some.injEq, Prod.mk.injEq] at h
    rw [← h.2.1, ← h.2.2]
    exact ⟨rfl, rfl⟩
  | cons hd rest ih =>
    obtain ⟨k0, p0⟩ := hd
    simp only [Adam.stepEntries] at h
    cases hg0 : dget grads ("d" ++ k0) with
    | none => rw [hg0] at h; exact absurd h (by simp)
    | some g0 =>
      cases hv0 : dget v ("d" ++ k0) with
      | none => rw [hg0, hv0] at h; exact absurd h (by simp)
      | some v0 =>
        cases hs0 : dget s ("d" ++ k0) with
        | none => rw [hg0, hv0, hs0] at h; exact absurd h (by simp)
        | some s0 =>
          simp only [hg0, hv0, hs0] at h
          cases hrest : Adam.stepEntries lr beta1 beta2 eps sq t grads m reg rest
              (dset v ("d" ++ k0) (Adam.step lr beta1 beta2 eps sq t m reg k0 p0 g0 v0 s0).2.1)
              (dset s ("d" ++ k0) (Adam.step lr beta1 beta2 eps sq t m reg k0 p0 g0 v0 s0).2.2) with
          | none => rw [hrest] at h; exact absurd h (by simp)
          | some r =>
            obtain ⟨ps1, v1, s1⟩ := r
            rw [hrest] at h
            have hv' : v' = v1 := by
              simpa using (congrArg (fun x => x.2.1) (Option.some.inj h)).symm
            have hs' : s' = s1 := by
              simpa using (congrArg (fun x => x.2.2) (Option.some.inj h)).symm
            subst hv'; subst hs'
            have hk0 : "d" ++ k0 ≠ key := hk ⟨k0, p0⟩ (List.mem_cons_self _ _)
            have step1 := ih
              (dset v ("d" ++ k0) (Adam.step lr beta1 beta2 eps sq t m reg k0 p0 g0 v0 s0).2.1)
              (dset s ("d" ++ k0) (Adam.step lr beta1 beta2 eps sq t m reg k0 p0 g0 v0 s0).2.2)
              ps1 hrest (fun kp hm => hk kp (List.mem_cons_of_mem _ hm))
            constructor
            · rw [step1.1]
              exact dget_dset_ne v ("d" ++ k0) key _ hk0
            · rw [step1.2]
              exact dget_dset_ne s ("d" ++ k0) key _ hk0

theorem adam_stepEntries_lookup (lr beta1 beta2 eps : ℚ) (sq : ℚ → ℚ) (t : ℕ)
    (grads : Assoc) (m : ℚ) (reg : Regularizer) (entries : Assoc)
    (v s ps' v' s' : Assoc) (k : String) (p g vOld sOld : Arr)
    (h : Adam.stepEntries lr beta1 beta2 eps sq t grads m reg entries v s
      = some (ps', v', s'))
    (hnd : (entries.map Prod.fst).Nodup)
    (hp : dget entries k = some p) (hg : dget grads ("d" ++ k) = some g)
    (hv : dget v ("d" ++ k) = some vOld) (hs : dget s ("d" ++ k) = some sOld) :
    dget ps' k = some (Adam.step lr beta1 beta2 eps sq t m reg k p g vOld sOld).1
    ∧ dget v' ("d" ++ k) = some (Adam.step lr beta1 beta2 eps sq t m reg k p g vOld sOld).2.1
    ∧ dget s' ("d" ++ k) = some (Adam.step lr beta1 beta2 eps sq t m reg k p g vOld sOld).2.2 := by
  induction entries generalizing v s ps' with
  | nil => simp [dget] at hp
  | cons hd rest ih =>
    obtain ⟨k0, p0⟩ := hd
    simp only [Adam.stepEntries] at h
    cases hg0 : dget grads ("d" ++ k0) with
    | none => rw [hg0] at h; exact absurd h (by simp)
    | some g0 =>
      cases hv0 : dget v ("d" ++ k0) with
      | none => rw [hg0, hv0] at h; exact absurd h (by simp)
      | some v0 =>
        cases hs0 : dget s ("d" ++ k0) with
        | none => rw [hg0, hv0, hs0] at h; exact absurd h (by simp)
        | some s0 =>
          simp only [hg0, hv0, hs0] at h
          cases hrest : Adam.stepEntries lr beta1 beta2 eps sq t grads m reg rest
              (dset v ("d" ++ k0) (Adam.step lr beta1 beta2 eps sq t m reg k0 p0 g0 v0 s0).2.1)
              (dset s ("d" ++ k0) (Adam.step lr beta1 beta2 eps sq t m reg k0 p0 g0 v0 s0).2.2) with
          | none => rw [hrest] at h; exact absurd h (by simp)
          | some r =>
            obtain ⟨ps1, v1, s1⟩ := r
            rw [hrest] at h
            have hps' : ps' = (k0, (Adam.step lr beta1 beta2 eps sq t m reg k0 p0 g0 v0 s0).1) :: ps1 := by
              simpa using (congrArg (fun x => x.1) (Option.some.inj h)).symm
            have hv' : v' = v1 := by
              simpa using (congrArg (fun x => x.2.1) (Option.some.inj h)).symm
            have hs' : s' = s1 := by
              simpa using (congrArg (fun x => x.2.2) (Option.some.inj h)).symm
            subst hps'; subst hv'; subst hs'
            by_cases hk : k0 = k
            · subst hk
              simp only [dget, if_pos rfl] at hp
              have hp0 : p0 = p := by simpa using hp
              subst hp0
              have hg0' : g0 = g := by rw [hg0] at hg; simpa using hg
              have hv0' : v0 = vOld := by rw [hv0] at hv; simpa using hv
              have hs0' : s0 = sOld := by rw [hs0] at hs; simpa using hs
              subst hg0'; subst hv0'; subst hs0'
              have hfr := adam_stepEntries_state_frame lr beta1 beta2 eps sq t grads m reg rest
                (dset v ("d" ++ k0) (Adam.step lr beta1 beta2 eps sq t m reg k0 p0 g0 v0 s0).2.1)
                (dset s ("d" ++ k0) (Adam.step lr beta1 beta2 eps sq t m reg k0 p0 g0 v0 s0).2.2)
                ps1 v' s' ("d" ++ k0) hrest ?_
              · refine ⟨by simp [dget], ?_, ?_⟩
                · rw [hfr.1, dget_dset_self]
                · rw [hfr.2, dget_dset_self]
              · intro kp hm hc
                have : kp.1 ∈ rest.map Prod.fst := List.mem_map_of_mem Prod.fst hm
                rw [dkey_inj hc] at this
                exact (List.nodup_cons.mp hnd).1 this
            · simp only [dget, if_neg hk] at hp
              have hne : ("d" ++ k0 : String) ≠ "d" ++ k := fun hc => hk (dkey_inj hc)
              have hvd : dget (dset v ("d" ++ k0)
                  (Adam.step lr beta1 beta2 eps sq t m reg k0 p0 g0 v0 s0).2.1) ("d" ++ k)
                  = some vOld := by rw [dget_dset_ne _ _ _ _ hne]; exact hv
              have hsd : dget (dset s ("d" ++ k0)
                  (Adam.step lr beta1 beta2 eps sq t m reg k0 p0 g0 v0 s0).2.2) ("d" ++ k)
                  = some sOld := by rw [dget_dset_ne _ _ _ _ hne]; exact hs
              have := ih _ _ ps1 hrest (List.nodup_cons.mp hnd).2 hp hvd hsd
              exact ⟨by simpa [dget, hk] using this.1, this.2.1, this.2.2⟩

theorem mom_stepLayer_lookup (lr beta : ℚ) (t : ℕ) (m : ℚ) (reg : Regularizer)
    (L : Layer) (v : Assoc) (out : Layer) (v' : Assoc) (k : String)
    (p g vOld : Arr)
    (h : Momentum.stepLayer lr beta t m reg L v = some (out, v'))
    (hnd : (L.params.map Prod.fst).Nodup)
    (hp : dget L.params k = some p) (hg : dget L.grads ("d" ++ k) = some g)
    (hv : dget v ("d" ++ k) = some vOld) :
    dget out.params k = some (Momentum.step lr beta t m reg k p g vOld).1
    ∧ dget v' ("d" ++ k) = some (Momentum.step lr beta t m reg k p g vOld).2
    ∧ out.grads = L.grads := by
  simp only [Momentum.stepLayer] at h
  cases he : Momentum.stepEntries lr beta t L.grads m reg L.params v with
  | none => rw [he] at h; exact absurd h (by simp)
  | some r =>
    obtain ⟨ps, w⟩ := r
    rw [he] at h
    have hout : out = { params := ps, grads := L.grads } := by
      simpa using (congrArg Prod.fst (Option.some.inj h)).symm
    have hw : v' = w := by
      simpa using (congrArg Prod.snd (Option.some.inj h)).symm
    subst hout; subst hw
    have := mom_stepEntries_lookup lr beta t L.grads m reg L.params v ps v' k
      p g vOld he hnd hp hg hv
    exact ⟨this.1, this.2, rfl⟩

theorem adam_stepLayer_lookup (lr beta1 beta2 eps : ℚ) (sq : ℚ → ℚ) (t : ℕ)
    (m : ℚ) (reg : Regularizer) (L : Layer) (v s : Assoc) (out : Layer)
    (v' s' : Assoc) (k : String) (p g vOld sOld : Arr)
    (h : Adam.stepLayer lr beta1 beta2 eps sq t m reg L v s = some (out, v', s'))
    (hnd : (L.params.map Prod.fst).Nodup)
    (hp : dget L.params k = some p) (hg : dget L.grads ("d" ++ k) = some g)
    (hv : dget v ("d" ++ k) = some vOld) (hs : dget s ("d" ++ k) = some sOld) :
    dget out.params k = some (Adam.step lr beta1 beta2 eps sq t m reg k p g vOld sOld).1
    ∧ dget v' ("d" ++ k) = some (Adam.step lr beta1 beta2 eps sq t m reg k p g vOld sOld).2.1
    ∧ dget s' ("d" ++ k) = some (Adam.step lr beta1 beta2 eps sq t m reg k p g vOld sOld).2.2
    ∧ out.grads = L.grads := by
  simp only [Adam.stepLayer] at h
  cases he : Adam.stepEntries lr beta1 beta2 eps sq t L.grads m reg L.params v s with
  | none => rw [he] at h; exact absurd h (by simp)
  | some r =>
    obtain ⟨ps, w1, w2⟩ := r
    rw [he] at h
    have hout : out = { params := ps, grads := L.grads } := by
      simpa using (congrArg (fun x => x.1) (Option.some.inj h)).symm
    have hw1 : v' = w1 := by
      simpa using (congrArg (fun x => x.2.1) (Option.some.inj h)).symm
    have hw2 : s' = w2 := by
      simpa using (congrArg (fun x => x.2.2) (Option.some.inj h)).symm
    subst hout; subst hw1; subst hw2
    have := adam_stepEntries_lookup lr beta1 beta2 eps sq t L.grads m reg
      L.params v s ps v' s' k p g vOld sOld he hnd hp hg hv hs
    exact ⟨this.1, this.2.1, this.2.2, rfl⟩

/-! ### From `update_params` down to a single layer -/

theorem gd_update_get (lr m : ℚ) (reg : Regularizer) (layers ls' : List Layer)
    (i : ℕ) (L L' : Layer)
    (h : GradientDescent.update_params lr m reg layers = some ls')
    (hi : layers.get? i = some L) (hi' : ls'.get? i = some L') :
    GradientDescent.stepLayer lr m reg L = some L' := by
  induction layers generalizing ls' i with
  | nil => simp at hi
  | cons hd rest ih =>
    simp only [GradientDescent.update_params] at h
    cases h1 : GradientDescent.stepLayer lr m reg hd with
    | none => rw [h1] at h; exact absurd h (by simp)
    | some hd' =>
      cases h2 : GradientDescent.update_params lr m reg rest with
      | none => rw [h1, h2] at h; exact absurd h (by simp)
      | some rest' =>
        rw [h1, h2] at h
        have hls' : ls' = hd' :: rest' := by simpa using h.symm
        subst hls'
        cases i with
        | zero =>
          have hL : hd = L := by simpa using hi
          have hL' : hd' = L' := by simpa using hi'
          rw [← hL, ← hL']
          exact h1
        | succ j =>
          exact ih rest' j (by simpa using h2) (by simpa using hi) (by simpa using hi')

theorem mom_update_get (lr beta : ℚ) (t : ℕ) (m : ℚ) (reg : Regularizer)
    (layers ls' : List Layer) (vs vs' : List Assoc) (i : ℕ) (L L' : Layer)
    (v : Assoc)
    (h : Momentum.update_params lr beta t m reg layers vs = some (ls', vs'))
    (hi : layers.get? i = some L) (hi' : ls'.get? i = some L')
    (hv : vs.get? i = some v) :
    ∃ v', Momentum.stepLayer lr beta t m reg L v = some (L', v')
      ∧ vs'.get? i = some v' := by
  induction layers generalizing ls' vs vs' i with
  | nil => simp at hi
  | cons hd rest ih =>
    cases vs with
    | nil => simp [Momentum.update_params] at h
    | cons vh vrest =>
      simp only [Momentum.update_params] at h
      cases h1 : Momentum.stepLayer lr beta t m reg hd vh with
      | none => rw [h1] at h; exact absurd h (by simp)
      | some r1 =>
        obtain ⟨hd', vh'⟩ := r1
        cases h2 : Momentum.update_params lr beta t m reg rest vrest with
        | none => rw [h1, h2] at h; exact absurd h (by simp)
        | some r2 =>
          obtain ⟨rest', vrest'⟩ := r2
          rw [h1, h2] at h
          have hls : ls' = hd' :: rest' := by
            simpa using (congrArg Prod.fst (Option.some.inj h)).symm
          have hvs : vs' = vh' :: vrest' := by
            simpa using (congrArg Prod.snd (Option.some.inj h)).symm
          subst hls; subst hvs
          cases i with
          | zero =>
            have hL : hd = L := by simpa using hi
            have hL' : hd' = L' := by simpa using hi'
            have hvh : vh = v := by simpa using hv
            rw [← hL, ← hL', ← hvh]
            exact ⟨vh', h1, rfl⟩
          | succ j =>
            have := ih rest' vrest vrest' j (by simpa using h2) (by simpa using hi)
              (by simpa using hi') (by simpa using hv)
            obtain ⟨v', hstep, hget⟩ := this
            exact ⟨v', hstep, by simpa using hget⟩

theorem adam_update_get (lr beta1 beta2 eps : ℚ) (sq : ℚ → ℚ) (t : ℕ) (m : ℚ)
    (reg : Regularizer) (layers ls' : List Layer) (vs vs' ss ss' : List Assoc)
    (i : ℕ) (L L' : Layer) (v s : Assoc)
    (h : Adam.update_params lr beta1 beta2 eps sq t m reg layers vs ss
      = some (ls', vs', ss'))
    (hi : layers.get? i = some L) (hi' : ls'.get? i = some L')
    (hv : vs.get? i = some v) (hs : ss.get? i = some s) :
    ∃ v' s', Adam.stepLayer lr beta1 beta2 eps sq t m reg L v s = some (L', v', s')
      ∧ vs'.get? i = some v' ∧ ss'.get? i = some s' := by
  induction layers generalizing ls' vs vs' ss ss' i with
  | nil => simp at hi
  | cons hd rest ih =>
    cases vs with
    | nil => simp [Adam.update_params] at h
    | cons vh vrest =>
      cases ss with
      | nil => simp [Adam.update_params] at h
      | cons sh srest =>
        simp only [Adam.update_params] at h
        cases h1 : Adam.stepLayer lr beta1 beta2 eps sq t m reg hd vh sh with
        | none => rw [h1] at h; exact absurd h (by simp)
        | some r1 =>
          obtain ⟨hd', vh', sh'⟩ := r1
          cases h2 : Adam.update_params lr beta1 beta2 eps sq t m reg rest vrest srest with
          | none => rw [h1, h2] at h; exact absurd h (by simp)
          | some r2 =>
            obtain ⟨rest', vrest', srest'⟩ := r2
            rw [h1, h2] at h
            have hls : ls' = hd' :: rest' := by
              simpa using (congrArg (fun x => x.1) (Option.some.inj h)).symm
            have hvs : vs' = vh' :: vrest' := by
              simpa using (congrArg (fun x => x.2.1) (Option.some.inj h)).symm
            have hss : ss' = sh' :: srest' := by
              simpa using (congrArg (fun x => x.2.2) (Option.some.inj h)).symm
            subst hls; subst hvs; subst hss
            cases i with
            | zero =>
              have hL : hd = L := by simpa using hi
              have hL' : hd' = L' := by simpa using hi'
              have hvh : vh = v := by simpa using hv
              have hsh : sh = s := by simpa using hs
              rw [← hL, ← hL', ← hvh, ← hsh]
              exact ⟨vh', sh', h1, rfl, rfl⟩
            | succ j =>
              have := ih rest' vrest vrest' srest srest' j (by simpa using h2)
                (by simpa using hi) (by simpa using hi') (by simpa using hv)
                (by simpa using hs)
              obtain ⟨v', s', hstep, hgv, hgs⟩ := this
              exact ⟨v', s', hstep, by simpa using hgv, by simpa using hgs⟩

/-! ### Algebra of the first update step from zero-initialized moments -/

theorem zipWith_take_take (f : ℚ → ℚ → ℚ) (a b : Arr) (n : ℕ) :
    List.zipWith f (a.take n) (b.take n) = (List.zipWith f a b).take n := by
  induction a generalizing b n with
  | nil => simp
  | cons x xs ih =>
    cases b with
    | nil => simp
    | cons y ys =>
      cases n with
      | zero => simp
      | succ n => simpa using ih ys n

theorem zipWith_vsq_self (f : ℚ → ℚ → ℚ) (g : Arr) :
    List.zipWith f g (vsq g) = g.map (fun x => f x (x * x)) := by
  induction g with
  | nil => simp [vsq]
  | cons x xs ih => simpa [vsq] using ih

theorem mom_vcorr_first (beta : ℚ) (hb : 1 - beta ≠ 0) (g : Arr) (n : ℕ) :
    vdivS (vadd (smul beta (zeros n)) (smul (1 - beta) g)) (1 - beta ^ 1)
      = g.take n := by
  rw [smul_zeros, vadd_zeros, pow_one, vdivS_take, vdivS_smul_cancel (1 - beta) hb]

theorem mom_step_first (lr beta m : ℚ) (hb : 1 - beta ≠ 0) (reg : Regularizer)
    (k : String) (p g : Arr) :
    (Momentum.step lr beta 1 m reg k p g (zeros p.length)).1
      = withDecay lr m reg k (vsub p (smul lr g)) := by
  simp only [Momentum.step]
  rw [mom_vcorr_first beta hb g p.length, smul_take, vsub_take]

theorem adam_step_first (lr beta1 beta2 eps m : ℚ) (sq : ℚ → ℚ)
    (hb1 : 1 - beta1 ≠ 0) (hb2 : 1 - beta2 ≠ 0) (reg : Regularizer)
    (k : String) (p g : Arr) :
    (Adam.step lr beta1 beta2 eps sq 1 m reg k p g (zeros p.length) (zeros p.length)).1
      = withDecay lr m reg k
          (vsub p (g.map (fun x => lr * x / (sq (x * x) + eps)))) := by
  simp only [Adam.step]
  rw [mom_vcorr_first beta1 hb1 g p.length]
  have hs : vdivS (vadd (smul beta2 (zeros p.length)) (smul (1 - beta2) (vsq g)))
      (1 - beta2 ^ 1) = (vsq g).take p.length :=
    mom_vcorr_first beta2 hb2 (vsq g) p.length
  rw [hs, zipWith_take_take, vsub_take, zipWith_vsq_self]

theorem mom_gd_entries_first (lr beta m : ℚ) (hb : 1 - beta ≠ 0)
    (grads : Assoc) (reg : Regularizer) (entries : Assoc) (v : Assoc)
    (hnd : (entries.map Prod.fst).Nodup)
    (hv : ∀ kp ∈ entries, dget v ("d" ++ kp.1) = some (zeros kp.2.length)) :
    (Momentum.stepEntries lr beta 1 grads m reg entries v).map Prod.fst
      = GradientDescent.stepEntries lr grads m reg entries := by
  induction entries generalizing v with
  | nil => simp [Momentum.stepEntries, GradientDescent.stepEntries]
  | cons hd rest ih =>
    obtain ⟨k0, p0⟩ := hd
    have hv0 : dget v ("d" ++ k0) = some (zeros p0.length) :=
      hv ⟨k0, p0⟩ (List.mem_cons_self _ _)
    cases hg0 : dget grads ("d" ++ k0) with
    | none =>
      simp [Momentum.stepEntries, GradientDescent.stepEntries,
        GradientDescent.step, hg0, hv0]
    | some g0 =>
      have hvrest : ∀ kp ∈ rest,
          dget (dset v ("d" ++ k0) (Momentum.step lr beta 1 m reg k0 p0 g0 (zeros p0.length)).2)
            ("d" ++ kp.1) = some (zeros kp.2.length) := by
        intro kp hm
        rw [dget_dset_ne]
        · exact hv kp (List.mem_cons_of_mem _ hm)
        · intro hc
          have : kp.1 ∈ rest.map Prod.fst := List.mem_map_of_mem Prod.fst hm
          rw [← dkey_inj hc] at this
          exact (List.nodup_cons.mp hnd).1 this
      have hih := ih (dset v ("d" ++ k0)
          (Momentum.step lr beta 1 m reg k0 p0 g0 (zeros p0.length)).2)
        (List.nodup_cons.mp hnd).2 hvrest
      simp only [Momentum.stepEntries, GradientDescent.stepEntries,
        GradientDescent.step, hg0, hv0]
      cases hrec : Momentum.stepEntries lr beta 1 grads m reg rest
          (dset v ("d" ++ k0) (Momentum.step lr beta 1 m reg k0 p0 g0 (zeros p0.length)).2) with
      | none =>
        rw [hrec] at hih
        rw [← hih]
        simp
      | some r =>
        obtain ⟨ps1, v1⟩ := r
        rw [hrec] at hih
        rw [← hih]
        simp [mom_step_first lr beta m hb reg k0 p0 g0]

theorem mom_gd_layer_first (lr beta m : ℚ) (hb : 1 - beta ≠ 0)
    (reg : Regularizer) (L : Layer) (hnd : (L.params.map Prod.fst).Nodup) :
    (Momentum.stepLayer lr beta 1 m reg L (initV L.params)).map Prod.fst
      = GradientDescent.stepLayer lr m reg L := by
  have hv : ∀ kp ∈ L.params, dget (initV L.params) ("d" ++ kp.1)
      = some (zeros kp.2.length) := by
    intro kp hm
    exact dget_initV L.params kp.1 kp.2 (dget_of_mem_nodup L.params kp hnd hm)
  have he := mom_gd_entries_first lr beta m hb L.grads reg L.params
    (initV L.params) hnd hv
  simp only [Momentum.stepLayer, GradientDescent.stepLayer]
  cases hrec : Momentum.stepEntries lr beta 1 L.grads m reg L.params (initV L.params) with
  | none =>
    rw [hrec] at he
    rw [← he]
    simp
  | some r =>
    obtain ⟨ps, v'⟩ := r
    rw [hrec] at he
    rw [← he]
    simp

theorem withDecay_none (lr m : ℚ) (k : String) (x : Arr) :
    withDecay lr m Regularizer.none k x = x := by
  simp [withDecay]

theorem withDecay_other (lr m : ℚ) (k : String) (x : Arr) :
    withDecay lr m Regularizer.other k x = x := by
  simp [withDecay]

theorem mom_gd_update_first (lr beta m : ℚ) (hb : 1 - beta ≠ 0)
    (reg : Regularizer) (layers : List Layer)
    (hnd : ∀ L ∈ layers, (L.params.map Prod.fst).Nodup) :
    (Momentum.update_params lr beta 1 m reg layers
        (Momentum.init_params layers)).map Prod.fst
      = GradientDescent.update_params lr m reg layers := by
  induction layers with
  | nil => simp [Momentum.update_params, Momentum.init_params,
      GradientDescent.update_params]
  | cons hd rest ih =>
    have hA := mom_gd_layer_first lr beta m hb reg hd
      (hnd hd (List.mem_cons_self _ _))
    have hB := ih (fun L hm => hnd L (List.mem_cons_of_mem _ hm))
    simp only [Momentum.init_params, List.map_cons] at *
    simp only [Momentum.update_params, GradientDescent.update_params]
    cases hA1 : Momentum.stepLayer lr beta 1 m reg hd (initV hd.params) with
    | none =>
      rw [hA1] at hA
      rw [← hA]
      simp
    | some r1 =>
      obtain ⟨hd', v'⟩ := r1
      rw [hA1] at hA
      rw [← hA]
      cases hB1 : Momentum.update_params lr beta 1 m reg rest
          (rest.map fun L => initV L.params) with
      | none =>
        rw [hB1] at hB
        rw [← hB]
        simp
      | some r2 =>
        obtain ⟨ls', vs'⟩ := r2
        rw [hB1] at hB
        rw [← hB]
        simp

/-! ### Claim theorems -/

/-- C1: the claim says the weight-decay term is computed from the parameter
value as it was BEFORE the gradient-based update of the same call ("captured
prior to mutation").  In the code, `param` is bound to the array object
`layer.params[k]` before the update, but the in-place `-=` mutates that very
object, so `compute_term_delta` receives the already-updated value.  At
lr = 1, m = 1, params = {"W": [1]}, grads = {"dW": [1]} and an L2
regularizer with `compute_term_delta(p, m) = p`, the code produces W = [0]
(decay term taken from the updated value 0), while the behavior the claim
and spec state produces W = [-1] (decay term taken from the original value
1). -/
theorem C1_decay_uses_post_update_value :
    GradientDescent.update_params 1 1 (Regularizer.L2 (fun p _ => p))
      [⟨[("W", [1])], [("dW", [1])]⟩]
      = some [⟨[("W", [0])], [("dW", [1])]⟩]
    ∧ SpecModel.gdStepLayer 1 1 (Regularizer.L2 (fun p _ => p))
      ⟨[("W", [1])], [("dW", [1])]⟩
      = some ⟨[("W", [-1])], [("dW", [1])]⟩
    ∧ some [(⟨[("W", [0])], [("dW", [1])]⟩ : Layer)]
      ≠ some [(⟨[("W", [-1])], [("dW", [1])]⟩ : Layer)] := by
  refine ⟨?_, ?_, ?_⟩
  · simp [GradientDescent.update_params, GradientDescent.stepLayer,
      GradientDescent.stepEntries, GradientDescent.step, dget, withDecay,
      vsub, smul]
  · simp [SpecModel.gdStepLayer, SpecModel.gdStepEntries, SpecModel.gdStep,
      SpecModel.withDecayPre, dget, vsub, smul]
  · intro h
    have := congrArg (fun o => (o.getD []).map (fun L => L.params)) h
    simp at this

/-- C2 counterexample: the claim says the optimizer state dictionaries have
exactly the same key set as the layer's `params`.  For a layer with
parameter key "W", `Momentum.init_params` (and both Adam moment dicts)
produce the key set {"dW"}, not {"W"}. -/
theorem C2_counterexample :
    (Momentum.init_params [⟨[("W", [5])], [("dW", [1])]⟩]).map
        (fun v => v.map Prod.fst) = [["dW"]]
    ∧ (Adam.init_params [⟨[("W", [5])], [("dW", [1])]⟩]).1.map
        (fun v => v.map Prod.fst) = [["dW"]]
    ∧ (Adam.init_params [⟨[("W", [5])], [("dW", [1])]⟩]).2.map
        (fun v => v.map Prod.fst) = [["dW"]]
    ∧ ([⟨[("W", [5])], [("dW", [1])]⟩] : List Layer).map
        (fun L => L.params.map Prod.fst) = [["W"]]
    ∧ ([["dW"]] : List (List String)) ≠ [["W"]] := by
  refine ⟨?_, ?_, ?_, ?_, ?_⟩
  · simp [Momentum.init_params, initV]
  · simp [Adam.init_params, initV]
  · simp [Adam.init_params, initV]
  · simp
  · decide

/-- C2 (amended): after `init_params(layers)`, the state dictionary of layer
`i` (the velocity dict for Momentum; both moment dicts for Adam, which are
equal) has exactly the key set `{"d" + k : k ∈ params}` — the gradient keys,
not the parameter keys — in the parameter dict's order, and the entry at
`"d" + k` is a zero array of exactly the shape of `params[k]`. -/
theorem C2_state_keys_and_shapes (layers : List Layer) (i : ℕ) (L : Layer)
    (hL : layers.get? i = some L) :
    ∃ v, (Momentum.init_params layers).get? i = some v
      ∧ (Adam.init_params layers).1.get? i = some v
      ∧ (Adam.init_params layers).2.get? i = some v
      ∧ v.map Prod.fst = L.params.map (fun kp => "d" ++ kp.1)
      ∧ ∀ k p, dget L.params k = some p → dget v ("d" ++ k) = some (zeros p.length) := by
  refine ⟨initV L.params, ?_, ?_, ?_, ?_, ?_⟩
  · rw [Momentum.init_params, List.get?_map, hL]
    rfl
  · rw [Adam.init_params]
    rw [List.get?_map, hL]
    rfl
  · rw [Adam.init_params]
    rw [List.get?_map, hL]
    rfl
  · simp [initV]
  · intro k p hp
    exact dget_initV L.params k p hp

/-- C2 witness: the amended statement at a concrete layer. -/
theorem C2_state_keys_and_shapes_witness :
    ([⟨[("W", [3, 4]), ("b", [7])], [("dW", [1, 1]), ("db", [1])]⟩] :
        List Layer).get? 0 = some ⟨[("W", [3, 4]), ("b", [7])], [("dW", [1, 1]), ("db", [1])]⟩
    ∧ ∃ v, (Momentum.init_params
          [⟨[("W", [3, 4]), ("b", [7])], [("dW", [1, 1]), ("db", [1])]⟩]).get? 0 = some v
      ∧ (Adam.init_params
          [⟨[("W", [3, 4]), ("b", [7])], [("dW", [1, 1]), ("db", [1])]⟩]).1.get? 0 = some v
      ∧ (Adam.init_params
          [⟨[("W", [3, 4]), ("b", [7])], [("dW", [1, 1]), ("db", [1])]⟩]).2.get? 0 = some v
      ∧ v.map Prod.fst = ([("W", ([3, 4] : Arr)), ("b", [7])] : Assoc).map
          (fun kp => "d" ++ kp.1)
      ∧ ∀ k p, dget [("W", ([3, 4] : Arr)), ("b", [7])] k = some p →
          dget v ("d" ++ k) = some (zeros p.length) :=
  ⟨rfl, C2_state_keys_and_shapes
    [⟨[("W", [3, 4]), ("b", [7])], [("dW", [1, 1]), ("db", [1])]⟩] 0
    ⟨[("W", [3, 4]), ("b", [7])], [("dW", [1, 1]), ("db", [1])]⟩ rfl⟩

/-- C3: for the Plain optimizer with no regularizer, every layer's every
parameter is replaced by its old value minus `lr` times its gradient. -/
theorem C3_plain_update_rule (lr m : ℚ) (layers ls' : List Layer) (i : ℕ)
    (L out : Layer) (k : String) (p g : Arr)
    (h : GradientDescent.update_params lr m Regularizer.none layers = some ls')
    (hi : layers.get? i = some L) (hi' : ls'.get? i = some out)
    (hp : dget L.params k = some p) (hg : dget L.grads ("d" ++ k) = some g) :
    dget out.params k = some (vsub p (smul lr g)) := by
  have hstep := gd_update_get lr m Regularizer.none layers ls' i L out h hi hi'
  have hl := gd_stepLayer_lookup lr m Regularizer.none L out k p g hstep hp hg
  rw [withDecay_none] at hl
  exact hl.1

/-- C3 witness: the spec's end-to-end scenario — a single layer with
`params={"W": [1.0, 2.0]}`, `grads={"dW": [0.1, 0.2]}`, lr=0.1, no
regularizer — yields `params["W"] == [0.99, 1.98]`. -/
theorem C3_plain_update_rule_witness :
    GradientDescent.update_params (1/10) 1 Regularizer.none
      [⟨[("W", [1, 2])], [("dW", [1/10, 1/5])]⟩]
      = some [⟨[("W", [99/100, 99/50])], [("dW", [1/10, 1/5])]⟩]
    ∧ dget (Layer.mk [("W", [99/100, 99/50])] [("dW", [1/10, 1/5])]).params "W"
      = some (vsub [1, 2] (smul (1/10) [1/10, 1/5]))
    ∧ vsub [1, 2] (smul (1/10) [1/10, 1/5]) = [99/100, 99/50] :=
  ⟨by simp [GradientDescent.update_params, GradientDescent.stepLayer,
      GradientDescent.stepEntries, GradientDescent.step, dget, withDecay,
      vsub, smul]; norm_num,
   C3_plain_update_rule (1/10) 1
     [⟨[("W", [1, 2])], [("dW", [1/10, 1/5])]⟩]
     [⟨[("W", [99/100, 99/50])], [("dW", [1/10, 1/5])]⟩] 0
     ⟨[("W", [1, 2])], [("dW", [1/10, 1/5])]⟩
     ⟨[("W", [99/100, 99/50])], [("dW", [1/10, 1/5])]⟩ "W" [1, 2] [1/10, 1/5]
     (by simp [GradientDescent.update_params, GradientDescent.stepLayer,
        GradientDescent.stepEntries, GradientDescent.step, dget, withDecay,
        vsub, smul]; norm_num)
     rfl rfl (by simp [dget]) (by simp [dget]),
   by simp [vsub, smul]; norm_num⟩

/-- C4: for Momentum starting from zero velocity, at `step_index = 1` the
bias-corrected velocity equals the raw gradient (the division by
`1 - beta^1` exactly cancels the `(1 - beta)` scaling), so the first
Momentum `update_params` call (no regularizer) changes the layers exactly as
one Plain gradient-descent step with the same learning rate. -/
theorem C4_momentum_first_step_matches_plain (lr beta m : ℚ) (g : Arr)
    (layers : List Layer) (hb : 1 - beta ≠ 0)
    (hnd : ∀ L ∈ layers, (L.params.map Prod.fst).Nodup) :
    vdivS (vadd (smul beta (zeros g.length)) (smul (1 - beta) g))
        (1 - beta ^ 1) = g
    ∧ (Momentum.update_params lr beta 1 m Regularizer.none layers
        (Momentum.init_params layers)).map Prod.fst
      = GradientDescent.update_params lr m Regularizer.none layers := by
  constructor
  · have h := mom_vcorr_first beta hb g g.length
    rwa [List.take_length] at h
  · exact mom_gd_update_first lr beta m hb Regularizer.none layers hnd

/-- C4 witness: the statement at lr = 1, beta = 9/10, a single layer. -/
theorem C4_momentum_first_step_matches_plain_witness :
    (1 : ℚ) - 9/10 ≠ 0
    ∧ (vdivS (vadd (smul (9/10) (zeros ([2, 3] : Arr).length))
          (smul (1 - 9/10) [2, 3])) (1 - (9/10 : ℚ) ^ 1) = [2, 3]
      ∧ (Momentum.update_params 1 (9/10) 1 1 Regularizer.none
          [⟨[("W", [1])], [("dW", [2])]⟩]
          (Momentum.init_params [⟨[("W", [1])], [("dW", [2])]⟩])).map Prod.fst
        = GradientDescent.update_params 1 1 Regularizer.none
          [⟨[("W", [1])], [("dW", [2])]⟩]) :=
  ⟨by norm_num,
   C4_momentum_first_step_matches_plain 1 (9/10) 1 [2, 3]
     [⟨[("W", [1])], [("dW", [2])]⟩] (by norm_num)
     (by
       intro L hL
       rcases List.mem_singleton.mp hL with rfl
       simp)⟩

/-- C5: for Adam starting from zero moments, a single `update_params` call
at `step_index = 1` satisfies `v_corrected = grad` and
`s_corrected = grad²` element-wise, so without a regularizer every parameter
is decreased by exactly `lr * grad / (|grad| + eps)` element-wise (where the
embedded `np.sqrt` satisfies `sq (x·x) = |x|`). -/
theorem C5_adam_first_step (lr beta1 beta2 eps m : ℚ) (sq : ℚ → ℚ)
    (layers ls' : List Layer) (vs' ss' : List Assoc) (i : ℕ) (L out : Layer)
    (k : String) (p g : Arr)
    (hb1 : 1 - beta1 ≠ 0) (hb2 : 1 - beta2 ≠ 0)
    (hsq : ∀ x : ℚ, sq (x * x) = |x|)
    (hnd : (L.params.map Prod.fst).Nodup)
    (h : Adam.update_params lr beta1 beta2 eps sq 1 m Regularizer.none layers
      (Adam.init_params layers).1 (Adam.init_params layers).2
      = some (ls', vs', ss'))
    (hi : layers.get? i = some L) (hi' : ls'.get? i = some out)
    (hp : dget L.params k = some p) (hg : dget L.grads ("d" ++ k) = some g) :
    vdivS (vadd (smul beta1 (zeros g.length)) (smul (1 - beta1) g))
        (1 - beta1 ^ 1) = g
    ∧ vdivS (vadd (smul beta2 (zeros g.length)) (smul (1 - beta2) (vsq g)))
        (1 - beta2 ^ 1) = vsq g
    ∧ dget out.params k
      = some (vsub p (g.map (fun x => lr * x / (|x| + eps)))) := by
  have hvi : (Adam.init_params layers).1.get? i = some (initV L.params) := by
    rw [Adam.init_params]
    rw [List.get?_map, hi]
    rfl
  have hsi : (Adam.init_params layers).2.get? i = some (initV L.params) := by
    rw [Adam.init_params]
    rw [List.get?_map, hi]
    rfl
  obtain ⟨v', s', hstep, hgv, hgs⟩ := adam_update_get lr beta1 beta2 eps sq 1 m
    Regularizer.none layers ls' (Adam.init_params layers).1 vs'
    (Adam.init_params layers).2 ss' i L out (initV L.params) (initV L.params)
    h hi hi' hvi hsi
  have hv0 : dget (initV L.params) ("d" ++ k) = some (zeros p.length) :=
    dget_initV L.params k p hp
  have hlk := adam_stepLayer_lookup lr beta1 beta2 eps sq 1 m Regularizer.none
    L (initV L.params) (initV L.params) out v' s' k p g (zeros p.length)
    (zeros p.length) hstep hnd hp hg hv0 hv0
  refine ⟨?_, ?_, ?_⟩
  · have h1 := mom_vcorr_first beta1 hb1 g g.length
    rwa [List.take_length] at h1
  · have h2 := mom_vcorr_first beta2 hb2 (vsq g) g.length
    rwa [List.take_of_length_le (by simp [vsq])] at h2
  · rw [hlk.1, adam_step_first lr beta1 beta2 eps m sq hb1 hb2
      Regularizer.none k p g, withDecay_none]
    simp only [hsq]

/-- C5 witness: Adam with `np.sqrt` embedded as `Rat.sqrt`, a single layer
`{"W": [1]}` with gradient `[2]`, lr = 1, beta1 = beta2 = 1/2, eps = 1:
the first step moves the weight from 1 to 1 - 1·2/(|2|+1) = 1/3. -/
theorem C5_adam_first_step_witness :
    (1 : ℚ) - 1/2 ≠ 0
    ∧ Adam.update_params 1 (1/2) (1/2) 1 Rat.sqrt 1 1 Regularizer.none
        [⟨[("W", [1])], [("dW", [2])]⟩]
        (Adam.init_params [⟨[("W", [1])], [("dW", [2])]⟩]).1
        (Adam.init_params [⟨[("W", [1])], [("dW", [2])]⟩]).2
      = some ([⟨[("W", [1/3])], [("dW", [2])]⟩], [[("dW", [1])]], [[("dW", [2])]])
    ∧ dget (Layer.mk [("W", [1/3])] [("dW", [2])]).params "W"
      = some (vsub [1] (([2] : Arr).map (fun x => 1 * x / (|x| + 1)))) := by
  have h4 : Rat.sqrt (4 : ℚ) = 2 := by
    rw [show (4 : ℚ) = 2 * 2 by norm_num, Rat.sqrt_eq]
    norm_num
  have hupd : Adam.update_params 1 (1/2) (1/2) 1 Rat.sqrt 1 1 Regularizer.none
      [⟨[("W", [1])], [("dW", [2])]⟩]
      (Adam.init_params [⟨[("W", [1])], [("dW", [2])]⟩]).1
      (Adam.init_params [⟨[("W", [1])], [("dW", [2])]⟩]).2
      = some ([⟨[("W", [1/3])], [("dW", [2])]⟩], [[("dW", [1])]], [[("dW", [2])]]) := by
    simp [Adam.update_params, Adam.stepLayer, Adam.stepEntries, Adam.step,
      Adam.init_params, initV, dget, dset, withDecay, vsub, vadd, smul,
      vdivS, vsq, zeros]
    norm_num [h4]
  refine ⟨by norm_num, hupd, ?_⟩
  exact (C5_adam_first_step 1 (1/2) (1/2) 1 1 Rat.sqrt
    [⟨[("W", [1])], [("dW", [2])]⟩] [⟨[("W", [1/3])], [("dW", [2])]⟩]
    [[("dW", [1])]] [[("dW", [2])]] 0
    ⟨[("W", [1])], [("dW", [2])]⟩ ⟨[("W", [1/3])], [("dW", [2])]⟩ "W" [1] [2]
    (by norm_num) (by norm_num) (fun x => Rat.sqrt_eq x) (by simp)
    hupd rfl rfl (by simp [dget]) (by simp [dget])).2.2

/-! ### Regularizer-kind and length helper lemmas -/

theorem withDecay_ne_W (lr m : ℚ) (reg : Regularizer) (k : String)
    (hk : k ≠ "W") (x : Arr) : withDecay lr m reg k x = x := by
  simp [withDecay, hk]

theorem withDecay_W_L2 (lr m : ℚ) (f : Arr → ℚ → Arr) (x : Arr) :
    withDecay lr m (Regularizer.L2 f) "W" x = vsub x (smul lr (f x m)) := by
  simp [withDecay]

theorem gd_step_other_none (lr m : ℚ) (grads : Assoc) (k : String) (p : Arr) :
    GradientDescent.step lr grads m Regularizer.other k p
      = GradientDescent.step lr grads m Regularizer.none k p := by
  cases hd : dget grads ("d" ++ k) <;>
    simp [GradientDescent.step, hd, withDecay_other, withDecay_none]

theorem gd_stepEntries_other_none (lr m : ℚ) (grads : Assoc) (ps : Assoc) :
    GradientDescent.stepEntries lr grads m Regularizer.other ps
      = GradientDescent.stepEntries lr grads m Regularizer.none ps := by
  induction ps with
  | nil => rfl
  | cons hd rest ih =>
    obtain ⟨k, p⟩ := hd
    simp [GradientDescent.stepEntries, gd_step_other_none, ih]

theorem gd_update_other_none (lr m : ℚ) (layers : List Layer) :
    GradientDescent.update_params lr m Regularizer.other layers
      = GradientDescent.update_params lr m Regularizer.none layers := by
  induction layers with
  | nil => rfl
  | cons hd rest ih =>
    simp [GradientDescent.update_params, GradientDescent.stepLayer,
      gd_stepEntries_other_none, ih]

theorem mom_step_other_none (lr beta : ℚ) (t : ℕ) (m : ℚ) (k : String)
    (p g vOld : Arr) :
    Momentum.step lr beta t m Regularizer.other k p g vOld
      = Momentum.step lr beta t m Regularizer.none k p g vOld := by
  simp [Momentum.step, withDecay_other, withDecay_none]

theorem mom_stepEntries_other_none (lr beta : ℚ) (t : ℕ) (grads : Assoc)
    (m : ℚ) (entries v : Assoc) :
    Momentum.stepEntries lr beta t grads m Regularizer.other entries v
      = Momentum.stepEntries lr beta t grads m Regularizer.none entries v := by
  induction entries generalizing v with
  | nil => rfl
  | cons hd rest ih =>
    obtain ⟨k, p⟩ := hd
    cases hg : dget grads ("d" ++ k) <;>
      cases hv : dget v ("d" ++ k) <;>
        simp [Momentum.stepEntries, hg, hv, mom_step_other_none, ih]

theorem mom_update_other_none (lr beta : ℚ) (t : ℕ) (m : ℚ)
    (layers : List Layer) (vs : List Assoc) :
    Momentum.update_params lr beta t m Regularizer.other layers vs
      = Momentum.update_params lr beta t m Regularizer.none layers vs := by
  induction layers generalizing vs with
  | nil => rfl
  | cons hd rest ih =>
    cases vs with
    | nil => rfl
    | cons vh vrest =>
      simp [Momentum.update_params, Momentum.stepLayer,
        mom_stepEntries_other_none, ih]

theorem adam_step_other_none (lr beta1 beta2 eps : ℚ) (sq : ℚ → ℚ) (t : ℕ)
    (m : ℚ) (k : String) (p g vOld sOld : Arr) :
    Adam.step lr beta1 beta2 eps sq t m Regularizer.other k p g vOld sOld
      = Adam.step lr beta1 beta2 eps sq t m Regularizer.none k p g vOld sOld := by
  simp [Adam.step, withDecay_other, withDecay_none]

theorem adam_stepEntries_other_none (lr beta1 beta2 eps : ℚ) (sq : ℚ → ℚ)
    (t : ℕ) (grads : Assoc) (m : ℚ) (entries v s : Assoc) :
    Adam.stepEntries lr beta1 beta2 eps sq t grads m Regularizer.other entries v s
      = Adam.stepEntries lr beta1 beta2 eps sq t grads m Regularizer.none entries v s := by
  induction entries generalizing v s with
  | nil => rfl
  | cons hd rest ih =>
    obtain ⟨k, p⟩ := hd
    cases hg : dget grads ("d" ++ k) <;>
      cases hv : dget v ("d" ++ k) <;>
        cases hs : dget s ("d" ++ k) <;>
          simp [Adam.stepEntries, hg, hv, hs, adam_step_other_none, ih]

theorem adam_update_other_none (lr beta1 beta2 eps : ℚ) (sq : ℚ → ℚ) (t : ℕ)
    (m : ℚ) (layers : List Layer) (vs ss : List Assoc) :
    Adam.update_params lr beta1 beta2 eps sq t m Regularizer.other layers vs ss
      = Adam.update_params lr beta1 beta2 eps sq t m Regularizer.none layers vs ss := by
  induction layers generalizing vs ss with
  | nil => rfl
  | cons hd rest ih =>
    cases vs with
    | nil => rfl
    | cons vh vrest =>
      cases ss with
      | nil => rfl
      | cons sh srest =>
        simp [Adam.update_params, Adam.stepLayer,
          adam_stepEntries_other_none, ih]

theorem gd_stepLayer_grads (lr m : ℚ) (reg : Regularizer) (L L' : Layer)
    (h : GradientDescent.stepLayer lr m reg L = some L') : L'.grads = L.grads := by
  simp only [GradientDescent.stepLayer] at h
  cases he : GradientDescent.stepEntries lr L.grads m reg L.params with
  | none => rw [he] at h; exact absurd h (by simp)
  | some ps =>
    rw [he] at h
    have : L' = { params := ps, grads := L.grads } := by simpa using h.symm
    rw [this]

theorem mom_stepLayer_grads (lr beta : ℚ) (t : ℕ) (m : ℚ) (reg : Regularizer)
    (L : Layer) (v : Assoc) (L' : Layer) (v' : Assoc)
    (h : Momentum.stepLayer lr beta t m reg L v = some (L', v')) :
    L'.grads = L.grads := by
  simp only [Momentum.stepLayer] at h
  cases he : Momentum.stepEntries lr beta t L.grads m reg L.params v with
  | none => rw [he] at h; exact absurd h (by simp)
  | some r =>
    obtain ⟨ps, w⟩ := r
    rw [he] at h
    have : L' = { params := ps, grads := L.grads } := by
      simpa using (congrArg Prod.fst (Option.some.inj h)).symm
    rw [this]

theorem adam_stepLayer_grads (lr beta1 beta2 eps : ℚ) (sq : ℚ → ℚ) (t : ℕ)
    (m : ℚ) (reg : Regularizer) (L : Layer) (v s : Assoc) (L' : Layer)
    (v' s' : Assoc)
    (h : Adam.stepLayer lr beta1 beta2 eps sq t m reg L v s = some (L', v', s')) :
    L'.grads = L.grads := by
  simp only [Adam.stepLayer] at h
  cases he : Adam.stepEntries lr beta1 beta2 eps sq t L.grads m reg L.params v s with
  | none => rw [he] at h; exact absurd h (by simp)
  | some r =>
    obtain ⟨ps, w1, w2⟩ := r
    rw [he] at h
    have : L' = { params := ps, grads := L.grads } := by
      simpa using (congrArg (fun x => x.1) (Option.some.inj h)).symm
    rw [this]

theorem length_vsub (a b : Arr) : (vsub a b).length = min a.length b.length := by
  simp [vsub]

theorem length_vadd (a b : Arr) : (vadd a b).length = min a.length b.length := by
  simp [vadd]

theorem length_smul (c : ℚ) (a : Arr) : (smul c a).length = a.length := by
  simp [smul]

theorem length_vdivS (a : Arr) (c : ℚ) : (vdivS a c).length = a.length := by
  simp [vdivS]

theorem length_vsq (a : Arr) : (vsq a).length = a.length := by
  simp [vsq]

theorem withDecay_length (lr m : ℚ) (reg : Regularizer) (k : String) (x : Arr)
    (hreg : reg.shapeOK) : (withDecay lr m reg k x).length = x.length := by
  by_cases hk : k = "W"
  · cases reg with
    | none => simp [withDecay, hk]
    | L2 f =>
      simp only [Regularizer.shapeOK] at hreg
      simp [withDecay, hk, length_vsub, length_smul, hreg]
    | other => simp [withDecay, hk]
  · simp [withDecay, hk]

/-- C6: in every optimizer variant, the weight-decay subtraction happens
exactly once per update for a parameter iff its key is the literal "W" and
the regularizer is the recognized L2 kind.  First three conjuncts: for any
key `k ≠ "W"` and ANY regularizer, the parameter receives only its
gradient-based update.  Last three conjuncts: for key "W" with an L2
regularizer carrying `compute_term_delta = f`, the result is the
gradient-updated value `u` minus `lr * f(u, m)` — one decay subtraction. -/
theorem C6_decay_iff_W_and_L2 (reg : Regularizer) (f : Arr → ℚ → Arr) :
    (∀ lr m layers ls' i L out k p g, k ≠ "W" →
      GradientDescent.update_params lr m reg layers = some ls' →
      layers.get? i = some L → ls'.get? i = some out →
      dget L.params k = some p → dget L.grads ("d" ++ k) = some g →
      dget out.params k = some (vsub p (smul lr g)))
    ∧ (∀ lr beta t m layers vs ls' vs' i L out v k p g vOld, k ≠ "W" →
      Momentum.update_params lr beta t m reg layers vs = some (ls', vs') →
      layers.get? i = some L → ls'.get? i = some out → vs.get? i = some v →
      (L.params.map Prod.fst).Nodup →
      dget L.params k = some p → dget L.grads ("d" ++ k) = some g →
      dget v ("d" ++ k) = some vOld →
      dget out.params k = some (vsub p (smul lr (vdivS
        (vadd (smul beta vOld) (smul (1 - beta) g)) (1 - beta ^ t)))))
    ∧ (∀ lr beta1 beta2 eps sq t m layers vs ss ls' vs' ss' i L out v s k p g vOld sOld,
      k ≠ "W" →
      Adam.update_params lr beta1 beta2 eps sq t m reg layers vs ss = some (ls', vs', ss') →
      layers.get? i = some L → ls'.get? i = some out → vs.get? i = some v →
      ss.get? i = some s → (L.params.map Prod.fst).Nodup →
      dget L.params k = some p → dget L.grads ("d" ++ k) = some g →
      dget v ("d" ++ k) = some vOld → dget s ("d" ++ k) = some sOld →
      dget out.params k = some (vsub p (List.zipWith
        (fun vi si => lr * vi / (sq si + eps))
        (vdivS (vadd (smul beta1 vOld) (smul (1 - beta1) g)) (1 - beta1 ^ t))
        (vdivS (vadd (smul beta2 sOld) (smul (1 - beta2) (vsq g))) (1 - beta2 ^ t)))))
    ∧ (∀ lr m layers ls' i L out p g,
      GradientDescent.update_params lr m (Regularizer.L2 f) layers = some ls' →
      layers.get? i = some L → ls'.get? i = some out →
      dget L.params "W" = some p → dget L.grads "dW" = some g →
      dget out.params "W" = some (vsub (vsub p (smul lr g))
        (smul lr (f (vsub p (smul lr g)) m))))
    ∧ (∀ lr beta t m layers vs ls' vs' i L out v p g vOld,
      Momentum.update_params lr beta t m (Regularizer.L2 f) layers vs = some (ls', vs') →
      layers.get? i = some L → ls'.get? i = some out → vs.get? i = some v →
      (L.params.map Prod.fst).Nodup →
      dget L.params "W" = some p → dget L.grads "dW" = some g →
      dget v "dW" = some vOld →
      dget out.params "W" = some (vsub
        (vsub p (smul lr (vdivS (vadd (smul beta vOld) (smul (1 - beta) g)) (1 - beta ^ t))))
        (smul lr (f (vsub p (smul lr (vdivS (vadd (smul beta vOld) (smul (1 - beta) g)) (1 - beta ^ t)))) m))))
    ∧ (∀ lr beta1 beta2 eps sq t m layers vs ss ls' vs' ss' i L out v s p g vOld sOld,
      Adam.update_params lr beta1 beta2 eps sq t m (Regularizer.L2 f) layers vs ss
        = some (ls', vs', ss') →
      layers.get? i = some L → ls'.get? i = some out → vs.get? i = some v →
      ss.get? i = some s → (L.params.map Prod.fst).Nodup →
      dget L.params "W" = some p → dget L.grads "dW" = some g →
      dget v "dW" = some vOld → dget s "dW" = some sOld →
      dget out.params "W" = some (vsub
        (vsub p (List.zipWith (fun vi si => lr * vi / (sq si + eps))
          (vdivS (vadd (smul beta1 vOld) (smul (1 - beta1) g)) (1 - beta1 ^ t))
          (vdivS (vadd (smul beta2 sOld) (smul (1 - beta2) (vsq g))) (1 - beta2 ^ t))))
        (smul lr (f (vsub p (List.zipWith (fun vi si => lr * vi / (sq si + eps))
          (vdivS (vadd (smul beta1 vOld) (smul (1 - beta1) g)) (1 - beta1 ^ t))
          (vdivS (vadd (smul beta2 sOld) (smul (1 - beta2) (vsq g))) (1 - beta2 ^ t)))) m)))) := by
  have hdW : ("d" : String) ++ "W" = "dW" := by simp
  refine ⟨?_, ?_, ?_, ?_, ?_, ?_⟩
  · intro lr m layers ls' i L out k p g hk h hi hi' hp hg
    have hstep := gd_update_get lr m reg layers ls' i L out h hi hi'
    have hl := gd_stepLayer_lookup lr m reg L out k p g hstep hp hg
    rw [withDecay_ne_W lr m reg k hk] at hl
    exact hl.1
  · intro lr beta t m layers vs ls' vs' i L out v k p g vOld hk h hi hi' hv hnd hp hg hvk
    obtain ⟨v', hstep, -⟩ := mom_update_get lr beta t m reg layers ls' vs vs' i L out v h hi hi' hv
    have hl := mom_stepLayer_lookup lr beta t m reg L v out v' k p g vOld hstep hnd hp hg hvk
    have := hl.1
    rw [Momentum.step] at this
    simpa [withDecay_ne_W lr m reg k hk] using this
  · intro lr beta1 beta2 eps sq t m layers vs ss ls' vs' ss' i L out v s k p g vOld sOld
      hk h hi hi' hv hs hnd hp hg hvk hsk
    obtain ⟨v', s', hstep, -, -⟩ := adam_update_get lr beta1 beta2 eps sq t m reg
      layers ls' vs vs' ss ss' i L out v s h hi hi' hv hs
    have hl := adam_stepLayer_lookup lr beta1 beta2 eps sq t m reg L v s out v' s'
      k p g vOld sOld hstep hnd hp hg hvk hsk
    have := hl.1
    rw [Adam.step] at this
    simpa [withDecay_ne_W lr m reg k hk] using this
  · intro lr m layers ls' i L out p g h hi hi' hp hg
    have hstep := gd_update_get lr m (Regularizer.L2 f) layers ls' i L out h hi hi'
    rw [← hdW] at hg
    have hl := gd_stepLayer_lookup lr m (Regularizer.L2 f) L out "W" p g hstep hp hg
    rw [withDecay_W_L2] at hl
    exact hl.1
  · intro lr beta t m layers vs ls' vs' i L out v p g vOld h hi hi' hv hnd hp hg hvk
    obtain ⟨v', hstep, -⟩ := mom_update_get lr beta t m (Regularizer.L2 f)
      layers ls' vs vs' i L out v h hi hi' hv
    rw [← hdW] at hg hvk
    have hl := mom_stepLayer_lookup lr beta t m (Regularizer.L2 f) L v out v'
      "W" p g vOld hstep hnd hp hg hvk
    have := hl.1
    rw [Momentum.step] at this
    simpa [withDecay_W_L2] using this
  · intro lr beta1 beta2 eps sq t m layers vs ss ls' vs' ss' i L out v s p g vOld sOld
      h hi hi' hv hs hnd hp hg hvk hsk
    obtain ⟨v', s', hstep, -, -⟩ := adam_update_get lr beta1 beta2 eps sq t m
      (Regularizer.L2 f) layers ls' vs vs' ss ss' i L out v s h hi hi' hv hs
    rw [← hdW] at hg hvk hsk
    have hl := adam_stepLayer_lookup lr beta1 beta2 eps sq t m (Regularizer.L2 f)
      L v s out v' s' "W" p g vOld sOld hstep hnd hp hg hvk hsk
    have := hl.1
    rw [Adam.step] at this
    simpa [withDecay_W_L2] using this

/-- C6 witness: with an L2 regularizer present, a "b" parameter receives
only its gradient update (no decay), while the "W" parameter of another
update receives the gradient update followed by exactly one decay
subtraction. -/
theorem C6_decay_iff_W_and_L2_witness :
    GradientDescent.update_params 1 1 (Regularizer.L2 (fun p _ => p))
      [⟨[("b", [1])], [("db", [2])]⟩] = some [⟨[("b", [-1])], [("db", [2])]⟩]
    ∧ dget (Layer.mk [("b", [-1])] [("db", [2])]).params "b"
      = some (vsub [1] (smul 1 [2]))
    ∧ GradientDescent.update_params 1 1 (Regularizer.L2 (fun p _ => p))
      [⟨[("W", [1])], [("dW", [1])]⟩] = some [⟨[("W", [0])], [("dW", [1])]⟩]
    ∧ dget (Layer.mk [("W", [0])] [("dW", [1])]).params "W"
      = some (vsub (vsub [1] (smul 1 [1]))
          (smul 1 ((fun (p : Arr) (_ : ℚ) => p) (vsub [1] (smul 1 [1])) 1))) := by
  have h1 : GradientDescent.update_params 1 1 (Regularizer.L2 (fun p _ => p))
      [⟨[("b", [1])], [("db", [2])]⟩] = some [⟨[("b", [-1])], [("db", [2])]⟩] := by
    simp [GradientDescent.update_params, GradientDescent.stepLayer,
      GradientDescent.stepEntries, GradientDescent.step, dget, withDecay,
      vsub, smul]
    norm_num
  have h2 : GradientDescent.update_params 1 1 (Regularizer.L2 (fun p _ => p))
      [⟨[("W", [1])], [("dW", [1])]⟩] = some [⟨[("W", [0])], [("dW", [1])]⟩] := by
    simp [GradientDescent.update_params, GradientDescent.stepLayer,
      GradientDescent.stepEntries, GradientDescent.step, dget, withDecay,
      vsub, smul]
  refine ⟨h1, ?_, h2, ?_⟩
  · exact (C6_decay_iff_W_and_L2 (Regularizer.L2 (fun p _ => p)) (fun p _ => p)).1
      1 1 [⟨[("b", [1])], [("db", [2])]⟩] [⟨[("b", [-1])], [("db", [2])]⟩] 0
      ⟨[("b", [1])], [("db", [2])]⟩ ⟨[("b", [-1])], [("db", [2])]⟩ "b" [1] [2]
      (by simp) h1 rfl rfl (by simp [dget]) (by simp [dget])
  · exact (C6_decay_iff_W_and_L2 (Regularizer.L2 (fun p _ => p)) (fun p _ => p)).2.2.2.1
      1 1 [⟨[("W", [1])], [("dW", [1])]⟩] [⟨[("W", [0])], [("dW", [1])]⟩] 0
      ⟨[("W", [1])], [("dW", [1])]⟩ ⟨[("W", [0])], [("dW", [1])]⟩ [1] [1]
      h2 rfl rfl (by simp [dget]) (by simp [dget])

/-- C7: a supplied regularizer of an unrecognized kind behaves exactly like
no regularizer at all, for every optimizer variant: the update completes the
same way (same success/failure, same gradient-based updates) and the
weight-decay subtraction is silently skipped. -/
theorem C7_unrecognized_regularizer_is_noop (lr beta beta1 beta2 eps m : ℚ)
    (sq : ℚ → ℚ) (t : ℕ) (layers : List Layer) (vs ss : List Assoc) :
    GradientDescent.update_params lr m Regularizer.other layers
      = GradientDescent.update_params lr m Regularizer.none layers
    ∧ Momentum.update_params lr beta t m Regularizer.other layers vs
      = Momentum.update_params lr beta t m Regularizer.none layers vs
    ∧ Adam.update_params lr beta1 beta2 eps sq t m Regularizer.other layers vs ss
      = Adam.update_params lr beta1 beta2 eps sq t m Regularizer.none layers vs ss :=
  ⟨gd_update_other_none lr m layers,
   mom_update_other_none lr beta t m layers vs,
   adam_update_other_none lr beta1 beta2 eps sq t m layers vs ss⟩

/-- C9: for every optimizer variant, when a parameter and its gradient have
equal shapes (and, for Momentum/Adam, the stored moment entries have that
shape too, as `init_params` guarantees), the updated parameter still has
exactly that shape, provided the regularizer honors its same-shape contract. -/
theorem C9_shapes_preserved (reg : Regularizer) (hreg : reg.shapeOK) :
    (∀ lr m layers ls' i L out k p g,
      GradientDescent.update_params lr m reg layers = some ls' →
      layers.get? i = some L → ls'.get? i = some out →
      dget L.params k = some p → dget L.grads ("d" ++ k) = some g →
      p.length = g.length →
      ∃ p', dget out.params k = some p' ∧ p'.length = p.length
        ∧ p'.length = g.length)
    ∧ (∀ lr beta t m layers vs ls' vs' i L out v k p g vOld,
      Momentum.update_params lr beta t m reg layers vs = some (ls', vs') →
      layers.get? i = some L → ls'.get? i = some out → vs.get? i = some v →
      (L.params.map Prod.fst).Nodup →
      dget L.params k = some p → dget L.grads ("d" ++ k) = some g →
      dget v ("d" ++ k) = some vOld →
      p.length = g.length → vOld.length = p.length →
      ∃ p', dget out.params k = some p' ∧ p'.length = p.length
        ∧ p'.length = g.length)
    ∧ (∀ lr beta1 beta2 eps sq t m layers vs ss ls' vs' ss' i L out v s k p g vOld sOld,
      Adam.update_params lr beta1 beta2 eps sq t m reg layers vs ss = some (ls', vs', ss') →
      layers.get? i = some L → ls'.get? i = some out → vs.get? i = some v →
      ss.get? i = some s → (L.params.map Prod.fst).Nodup →
      dget L.params k = some p → dget L.grads ("d" ++ k) = some g →
      dget v ("d" ++ k) = some vOld → dget s ("d" ++ k) = some sOld →
      p.length = g.length → vOld.length = p.length → sOld.length = p.length →
      ∃ p', dget out.params k = some p' ∧ p'.length = p.length
        ∧ p'.length = g.length) := by
  refine ⟨?_, ?_, ?_⟩
  · intro lr m layers ls' i L out k p g h hi hi' hp hg hlen
    have hstep := gd_update_get lr m reg layers ls' i L out h hi hi'
    have hl := gd_stepLayer_lookup lr m reg L out k p g hstep hp hg
    refine ⟨_, hl.1, ?_, ?_⟩ <;>
      simp [withDecay_length lr m reg k _ hreg, length_vsub, length_smul, hlen]
  · intro lr beta t m layers vs ls' vs' i L out v k p g vOld h hi hi' hv hnd hp hg hvk hlen hvlen
    obtain ⟨v', hstep, -⟩ := mom_update_get lr beta t m reg layers ls' vs vs'
      i L out v h hi hi' hv
    have hl := mom_stepLayer_lookup lr beta t m reg L v out v' k p g vOld
      hstep hnd hp hg hvk
    refine ⟨_, hl.1, ?_, ?_⟩ <;>
      simp [Momentum.step, withDecay_length lr m reg k _ hreg, length_vsub,
        length_smul, length_vdivS, length_vadd, hlen, hvlen]
  · intro lr beta1 beta2 eps sq t m layers vs ss ls' vs' ss' i L out v s k p g
      vOld sOld h hi hi' hv hs hnd hp hg hvk hsk hlen hvlen hslen
    obtain ⟨v', s', hstep, -, -⟩ := adam_update_get lr beta1 beta2 eps sq t m
      reg layers ls' vs vs' ss ss' i L out v s h hi hi' hv hs
    have hl := adam_stepLayer_lookup lr beta1 beta2 eps sq t m reg L v s out
      v' s' k p g vOld sOld hstep hnd hp hg hvk hsk
    refine ⟨_, hl.1, ?_, ?_⟩ <;>
      simp [Adam.step, withDecay_length lr m reg k _ hreg, length_vsub,
        length_smul, length_vdivS, length_vadd, length_vsq, hlen, hvlen, hslen]

/-- C9 witness: the three parts at a concrete one-layer, one-key setup with
an L2 regularizer (`compute_term_delta(p, m) = p`, same-shape) — the
updated weight keeps shape 1. -/
theorem C9_shapes_preserved_witness :
    (Regularizer.L2 (fun p _ => p)).shapeOK
    ∧ (∃ p', dget (Layer.mk [("W", [0])] [("dW", [1])]).params "W" = some p'
        ∧ p'.length = ([1] : Arr).length ∧ p'.length = ([1] : Arr).length) := by
  have hreg : (Regularizer.L2 (fun p _ => p)).shapeOK := by
    intro a c
    rfl
  have h2 : GradientDescent.update_params 1 1 (Regularizer.L2 (fun p _ => p))
      [⟨[("W", [1])], [("dW", [1])]⟩] = some [⟨[("W", [0])], [("dW", [1])]⟩] := by
    simp [GradientDescent.update_params, GradientDescent.stepLayer,
      GradientDescent.stepEntries, GradientDescent.step, dget, withDecay,
      vsub, smul]
  exact ⟨hreg,
    (C9_shapes_preserved (Regularizer.L2 (fun p _ => p)) hreg).1
      1 1 [⟨[("W", [1])], [("dW", [1])]⟩] [⟨[("W", [0])], [("dW", [1])]⟩] 0
      ⟨[("W", [1])], [("dW", [1])]⟩ ⟨[("W", [0])], [("dW", [1])]⟩ "W" [1] [1]
      h2 rfl rfl (by simp [dget]) (by simp [dget]) rfl⟩

/-- C10: no optimizer variant ever writes to a layer's `grads` mapping —
after any successful `update_params`, every layer's gradient dict is
identical (same keys, same arrays) to what it was before the call. -/
theorem C10_grads_read_only (reg : Regularizer) :
    (∀ lr m layers ls' i L L',
      GradientDescent.update_params lr m reg layers = some ls' →
      layers.get? i = some L → ls'.get? i = some L' → L'.grads = L.grads)
    ∧ (∀ lr beta t m layers vs ls' vs' i L L' v,
      Momentum.update_params lr beta t m reg layers vs = some (ls', vs') →
      layers.get? i = some L → ls'.get? i = some L' → vs.get? i = some v →
      L'.grads = L.grads)
    ∧ (∀ lr beta1 beta2 eps sq t m layers vs ss ls' vs' ss' i L L' v s,
      Adam.update_params lr beta1 beta2 eps sq t m reg layers vs ss
        = some (ls', vs', ss') →
      layers.get? i = some L → ls'.get? i = some L' → vs.get? i = some v →
      ss.get? i = some s → L'.grads = L.grads) := by
  refine ⟨?_, ?_, ?_⟩
  · intro lr m layers ls' i L L' h hi hi'
    exact gd_stepLayer_grads lr m reg L L'
      (gd_update_get lr m reg layers ls' i L L' h hi hi')
  · intro lr beta t m layers vs ls' vs' i L L' v h hi hi' hv
    obtain ⟨v', hstep, -⟩ := mom_update_get lr beta t m reg layers ls' vs vs'
      i L L' v h hi hi' hv
    exact mom_stepLayer_grads lr beta t m reg L v L' v' hstep
  · intro lr beta1 beta2 eps sq t m layers vs ss ls' vs' ss' i L L' v s h hi hi' hv hs
    obtain ⟨v', s', hstep, -, -⟩ := adam_update_get lr beta1 beta2 eps sq t m
      reg layers ls' vs vs' ss ss' i L L' v s h hi hi' hv hs
    exact adam_stepLayer_grads lr beta1 beta2 eps sq t m reg L v s L' v' s' hstep

/-- C10 witness: the Plain part at a concrete one-layer input — the
gradient dict after the update is the one before it. -/
theorem C10_grads_read_only_witness :
    GradientDescent.update_params 1 1 Regularizer.none
      [⟨[("W", [1])], [("dW", [1])]⟩] = some [⟨[("W", [0])], [("dW", [1])]⟩]
    ∧ (Layer.mk [("W", [0])] [("dW", [1])]).grads
      = (Layer.mk [("W", [1])] [("dW", [1])]).grads := by
  have h : GradientDescent.update_params 1 1 Regularizer.none
      [⟨[("W", [1])], [("dW", [1])]⟩] = some [⟨[("W", [0])], [("dW", [1])]⟩] := by
    simp [GradientDescent.update_params, GradientDescent.stepLayer,
      GradientDescent.stepEntries, GradientDescent.step, dget, withDecay,
      vsub, smul]
  exact ⟨h, (C10_grads_read_only Regularizer.none).1 1 1
    [⟨[("W", [1])], [("dW", [1])]⟩] [⟨[("W", [0])], [("dW", [1])]⟩] 0
    ⟨[("W", [1])], [("dW", [1])]⟩ ⟨[("W", [0])], [("dW", [1])]⟩ h rfl rfl⟩

/-! ### Two successive calls with identical inputs (claim C8) -/

theorem vadd_smul_take (a b c : ℚ) (g : Arr) (n : ℕ) :
    vadd (smul a ((smul b g).take n)) (smul c g)
      = (smul (a * b + c) g).take n := by
  induction g generalizing n with
  | nil => simp [smul, vadd]
  | cons x xs ih =>
    cases n with
    | zero => simp [smul, vadd]
    | succ n =>
      have := ih n
      simp only [smul, List.map_cons, List.take_succ_cons, vadd,
        List.zipWith_cons_cons] at *
      rw [this]
      congr 1
      ring

theorem mom_vnew_first (lr beta : ℚ) (m : ℚ) (reg : Regularizer) (k : String)
    (p g : Arr) (n : ℕ) :
    (Momentum.step lr beta 1 m reg k p g (zeros n)).2
      = (smul (1 - beta) g).take n := by
  simp only [Momentum.step]
  rw [smul_zeros, vadd_zeros]

theorem mom_step_second (lr beta m : ℚ) (hb1 : 1 - beta ≠ 0)
    (hb2 : 1 - beta ^ 2 ≠ 0) (reg : Regularizer) (k : String) (p g : Arr) :
    (Momentum.step lr beta 2 m reg k p g ((smul (1 - beta) g).take p.length)).1
      = (Momentum.step lr beta 1 m reg k p g (zeros p.length)).1 := by
  rw [mom_step_first lr beta m hb1 reg k p g]
  simp only [Momentum.step]
  rw [vadd_smul_take]
  have hc : beta * (1 - beta) + (1 - beta) = 1 - beta ^ 2 := by ring
  rw [hc, vdivS_take, vdivS_smul_cancel (1 - beta ^ 2) hb2, smul_take, vsub_take]

theorem adam_vnew_first (lr beta1 beta2 eps : ℚ) (sq : ℚ → ℚ) (m : ℚ)
    (reg : Regularizer) (k : String) (p g : Arr) (n : ℕ) :
    (Adam.step lr beta1 beta2 eps sq 1 m reg k p g (zeros n) (zeros n)).2
      = ((smul (1 - beta1) g).take n, (smul (1 - beta2) (vsq g)).take n) := by
  simp only [Adam.step]
  rw [smul_zeros, vadd_zeros, smul_zeros, vadd_zeros]

theorem adam_step_second (lr beta1 beta2 eps m : ℚ) (sq : ℚ → ℚ)
    (hb1 : 1 - beta1 ≠ 0) (hb1' : 1 - beta1 ^ 2 ≠ 0)
    (hb2 : 1 - beta2 ≠ 0) (hb2' : 1 - beta2 ^ 2 ≠ 0)
    (reg : Regularizer) (k : String) (p g : Arr) :
    (Adam.step lr beta1 beta2 eps sq 2 m reg k p g
        ((smul (1 - beta1) g).take p.length)
        ((smul (1 - beta2) (vsq g)).take p.length)).1
      = (Adam.step lr beta1 beta2 eps sq 1 m reg k p g (zeros p.length)
          (zeros p.length)).1 := by
  rw [adam_step_first lr beta1 beta2 eps m sq hb1 hb2 reg k p g]
  simp only [Adam.step]
  rw [vadd_smul_take, vadd_smul_take]
  have hc1 : beta1 * (1 - beta1) + (1 - beta1) = 1 - beta1 ^ 2 := by ring
  have hc2 : beta2 * (1 - beta2) + (1 - beta2) = 1 - beta2 ^ 2 := by ring
  rw [hc1, hc2, vdivS_take, vdivS_take,
    vdivS_smul_cancel (1 - beta1 ^ 2) hb1', vdivS_smul_cancel (1 - beta2 ^ 2) hb2',
    zipWith_take_take, vsub_take, zipWith_vsq_self]

theorem mom_stepEntries_congr_state (lr beta : ℚ) (t : ℕ) (grads : Assoc)
    (m : ℚ) (reg : Regularizer) (entries : Assoc) (v w : Assoc)
    (hvw : ∀ kp ∈ entries, dget v ("d" ++ kp.1) = dget w ("d" ++ kp.1)) :
    (Momentum.stepEntries lr beta t grads m reg entries v).map Prod.fst
      = (Momentum.stepEntries lr beta t grads m reg entries w).map Prod.fst := by
  induction entries generalizing v w with
  | nil => rfl
  | cons hd rest ih =>
    obtain ⟨k0, p0⟩ := hd
    have hk0 := hvw ⟨k0, p0⟩ (List.mem_cons_self _ _)
    have hrest : ∀ (r : Arr), ∀ kp ∈ rest,
        dget (dset v ("d" ++ k0) r) ("d" ++ kp.1)
          = dget (dset w ("d" ++ k0) r) ("d" ++ kp.1) := by
      intro r kp hm
      by_cases hc : ("d" ++ k0 : String) = "d" ++ kp.1
      · rw [← hc, dget_dset_self, dget_dset_self]
      · rw [dget_dset_ne v _ _ _ (fun h => hc h),
          dget_dset_ne w _ _ _ (fun h => hc h)]
        exact hvw kp (List.mem_cons_of_mem _ hm)
    cases hg0 : dget grads ("d" ++ k0) with
    | none => simp [Momentum.stepEntries, hg0]
    | some g0 =>
      cases hv0 : dget v ("d" ++ k0) with
      | none =>
        rw [hv0] at hk0
        simp [Momentum.stepEntries, hg0, hv0, ← hk0]
      | some v0 =>
        rw [hv0] at hk0
        have hih := ih (dset v ("d" ++ k0) (Momentum.step lr beta t m reg k0 p0 g0 v0).2)
          (dset w ("d" ++ k0) (Momentum.step lr beta t m reg k0 p0 g0 v0).2)
          (hrest _)
        simp only [Momentum.stepEntries, hg0, hv0, ← hk0]
        cases h1 : Momentum.stepEntries lr beta t grads m reg rest
            (dset v ("d" ++ k0) (Momentum.step lr beta t m reg k0 p0 g0 v0).2) with
        | none =>
          rw [h1] at hih
          cases h2 : Momentum.stepEntries lr beta t grads m reg rest
              (dset w ("d" ++ k0) (Momentum.step lr beta t m reg k0 p0 g0 v0).2) with
          | none => rfl
          | some r2 => rw [h2] at hih; simp at hih
        | some r1 =>
          obtain ⟨ps1, v1⟩ := r1
          rw [h1] at hih
          cases h2 : Momentum.stepEntries lr beta t grads m reg rest
              (dset w ("d" ++ k0) (Momentum.step lr beta t m reg k0 p0 g0 v0).2) with
          | none => rw [h2] at hih; simp at hih
          | some r2 =>
            obtain ⟨ps2, v2⟩ := r2
            rw [h2] at hih
            simp at hih
            simp [hih]

theorem mom_entries_two_step (lr beta m : ℚ) (hb1 : 1 - beta ≠ 0)
    (hb2 : 1 - beta ^ 2 ≠ 0) (grads : Assoc) (reg : Regularizer)
    (entries : Assoc) :
    ∀ (w ps₁ v₁ : Assoc),
      (entries.map Prod.fst).Nodup →
      (∀ kp ∈ entries, dget w ("d" ++ kp.1) = some (zeros kp.2.length)) →
      Momentum.stepEntries lr beta 1 grads m reg entries w = some (ps₁, v₁) →
      (Momentum.stepEntries lr beta 2 grads m reg entries v₁).map Prod.fst
        = some ps₁ := by
  induction entries with
  | nil =>
    intro w ps₁ v₁ _ _ h
    simp only [Momentum.stepEntries, Option.some.injEq, Prod.mk.injEq] at h
    rw [← h.1]
    rfl
  | cons hd rest ih =>
    intro w ps₁ v₁ hnd hv h
    obtain ⟨k0, p0⟩ := hd
    have hv0 : dget w ("d" ++ k0) = some (zeros p0.length) :=
      hv ⟨k0, p0⟩ (List.mem_cons_self _ _)
    simp only [Momentum.stepEntries] at h
    cases hg0 : dget grads ("d" ++ k0) with
    | none => rw [hg0] at h; exact absurd h (by simp)
    | some g0 =>
      simp only [hg0, hv0] at h
      cases hrest : Momentum.stepEntries lr beta 1 grads m reg rest
          (dset w ("d" ++ k0)
            (Momentum.step lr beta 1 m reg k0 p0 g0 (zeros p0.length)).2) with
      | none => rw [hrest] at h; exact absurd h (by simp)
      | some r =>
        obtain ⟨ps1, w1⟩ := r
        rw [hrest] at h
        have hps₁ : ps₁ = (k0, (Momentum.step lr beta 1 m reg k0 p0 g0 (zeros p0.length)).1) :: ps1 := by
          simpa using (congrArg Prod.fst (Option.some.inj h)).symm
        have hv₁ : v₁ = w1 := by
          simpa using (congrArg Prod.snd (Option.some.inj h)).symm
        subst hps₁; subst hv₁
        have hkrest : ∀ kp ∈ rest, ("d" ++ kp.1 : String) ≠ "d" ++ k0 := by
          intro kp hm hc
          have : kp.1 ∈ rest.map Prod.fst := List.mem_map_of_mem Prod.fst hm
          rw [dkey_inj hc] at this
          exact (List.nodup_cons.mp hnd).1 this
        have hfr := mom_stepEntries_state_frame lr beta 1 grads m reg rest
          (dset w ("d" ++ k0)
            (Momentum.step lr beta 1 m reg k0 p0 g0 (zeros p0.length)).2)
          ps1 v₁ ("d" ++ k0) hrest hkrest
        have hv₁k : dget v₁ ("d" ++ k0)
            = some ((smul (1 - beta) g0).take p0.length) := by
          rw [hfr, dget_dset_self, mom_vnew_first]
        have hvrest : ∀ kp ∈ rest,
            dget (dset w ("d" ++ k0)
              (Momentum.step lr beta 1 m reg k0 p0 g0 (zeros p0.length)).2)
              ("d" ++ kp.1) = some (zeros kp.2.length) := by
          intro kp hm
          rw [dget_dset_ne _ _ _ _ (fun hc => hkrest kp hm hc.symm)]
          exact hv kp (List.mem_cons_of_mem _ hm)
        have hih := ih (dset w ("d" ++ k0)
            (Momentum.step lr beta 1 m reg k0 p0 g0 (zeros p0.length)).2)
          ps1 v₁ (List.nodup_cons.mp hnd).2 hvrest hrest
        have hcong := mom_stepEntries_congr_state lr beta 2 grads m reg rest
          (dset v₁ ("d" ++ k0)
            (Momentum.step lr beta 2 m reg k0 p0 g0
              ((smul (1 - beta) g0).take p0.length)).2) v₁ ?_
        · simp only [Momentum.stepEntries, hg0, hv₁k]
          cases hre : Momentum.stepEntries lr beta 2 grads m reg rest
              (dset v₁ ("d" ++ k0)
                (Momentum.step lr beta 2 m reg k0 p0 g0
                  ((smul (1 - beta) g0).take p0.length)).2) with
          | none =>
            rw [hre] at hcong
            rw [hih] at hcong
            exact absurd hcong.symm (by simp)
          | some r2 =>
            obtain ⟨ps2, w2⟩ := r2
            rw [hre] at hcong
            rw [hih] at hcong
            have hps2 : ps2 = ps1 := by simpa using hcong
            subst hps2
            simp [mom_step_second lr beta m hb1 hb2 reg k0 p0 g0]
        · intro kp hm
          rw [dget_dset_ne _ _ _ _ (fun hc => hkrest kp hm hc.symm)]

theorem mom_layer_two_step (lr beta m : ℚ) (hb1 : 1 - beta ≠ 0)
    (hb2 : 1 - beta ^ 2 ≠ 0) (reg : Regularizer) (L : Layer)
    (hnd : (L.params.map Prod.fst).Nodup) (L₁ : Layer) (v₁ : Assoc)
    (h : Momentum.stepLayer lr beta 1 m reg L (initV L.params) = some (L₁, v₁)) :
    (Momentum.stepLayer lr beta 2 m reg L v₁).map Prod.fst = some L₁ := by
  simp only [Momentum.stepLayer] at h ⊢
  cases he : Momentum.stepEntries lr beta 1 L.grads m reg L.params (initV L.params) with
  | none => rw [he] at h; exact absurd h (by simp)
  | some r =>
    obtain ⟨ps, w⟩ := r
    rw [he] at h
    have hL₁ : L₁ = { params := ps, grads := L.grads } := by
      simpa using (congrArg Prod.fst (Option.some.inj h)).symm
    have hw : v₁ = w := by
      simpa using (congrArg Prod.snd (Option.some.inj h)).symm
    subst hL₁; subst hw
    have hv : ∀ kp ∈ L.params, dget (initV L.params) ("d" ++ kp.1)
        = some (zeros kp.2.length) := by
      intro kp hm
      exact dget_initV L.params kp.1 kp.2 (dget_of_mem_nodup L.params kp hnd hm)
    have h2 := mom_entries_two_step lr beta m hb1 hb2 L.grads reg L.params
      (initV L.params) ps v₁ hnd hv he
    cases hre : Momentum.stepEntries lr beta 2 L.grads m reg L.params v₁ with
    | none => rw [hre] at h2; exact absurd h2 (by simp)
    | some r2 =>
      obtain ⟨ps2, w2⟩ := r2
      rw [hre] at h2
      have : ps2 = ps := by simpa using h2
      subst this
      rfl

theorem mom_update_two_step (lr beta m : ℚ) (hb1 : 1 - beta ≠ 0)
    (hb2 : 1 - beta ^ 2 ≠ 0) (reg : Regularizer) (layers : List Layer)
    (hnd : ∀ L ∈ layers, (L.params.map Prod.fst).Nodup)
    (ls₁ : List Layer) (vs₁ : List Assoc)
    (h : Momentum.update_params lr beta 1 m reg layers
      (Momentum.init_params layers) = some (ls₁, vs₁)) :
    (Momentum.update_params lr beta 2 m reg layers vs₁).map Prod.fst
      = some ls₁ := by
  induction layers generalizing ls₁ vs₁ with
  | nil =>
    simp only [Momentum.init_params, List.map_nil, Momentum.update_params,
      Option.some.injEq, Prod.mk.injEq] at h
    rw [← h.1, ← h.2]
    rfl
  | cons hd rest ih =>
    simp only [Momentum.init_params, List.map_cons, Momentum.update_params] at h
    cases h1 : Momentum.stepLayer lr beta 1 m reg hd (initV hd.params) with
    | none => rw [h1] at h; exact absurd h (by simp)
    | some r1 =>
      obtain ⟨hd₁, vh₁⟩ := r1
      cases h2 : Momentum.update_params lr beta 1 m reg rest
          (rest.map fun L => initV L.params) with
      | none => rw [h1, h2] at h; exact absurd h (by simp)
      | some r2 =>
        obtain ⟨rest₁, vrest₁⟩ := r2
        rw [h1, h2] at h
        have hls : ls₁ = hd₁ :: rest₁ := by
          simpa using (congrArg Prod.fst (Option.some.inj h)).symm
        have hvs : vs₁ = vh₁ :: vrest₁ := by
          simpa using (congrArg Prod.snd (Option.some.inj h)).symm
        subst hls; subst hvs
        have hlay := mom_layer_two_step lr beta m hb1 hb2 reg hd
          (hnd hd (List.mem_cons_self _ _)) hd₁ vh₁ h1
        have hrest := ih (fun L hm => hnd L (List.mem_cons_of_mem _ hm))
          rest₁ vrest₁ (by simpa [Momentum.init_params] using h2)
        simp only [Momentum.update_params]
        cases hl2 : Momentum.stepLayer lr beta 2 m reg hd vh₁ with
        | none => rw [hl2] at hlay; exact absurd hlay (by simp)
        | some q1 =>
          obtain ⟨hd₂, wh⟩ := q1
          rw [hl2] at hlay
          have : hd₂ = hd₁ := by simpa using hlay
          subst this
          cases hu2 : Momentum.update_params lr beta 2 m reg rest vrest₁ with
          | none => rw [hu2] at hrest; exact absurd hrest (by simp)
          | some q2 =>
            obtain ⟨rest₂, wrest⟩ := q2
            rw [hu2] at hrest
            have : rest₂ = rest₁ := by simpa using hrest
            subst this
            rfl

theorem adam_stepEntries_congr_state (lr beta1 beta2 eps : ℚ) (sq : ℚ → ℚ)
    (t : ℕ) (grads : Assoc) (m : ℚ) (reg : Regularizer) (entries : Assoc) :
    ∀ (v s w x : Assoc),
      (∀ kp ∈ entries, dget v ("d" ++ kp.1) = dget w ("d" ++ kp.1)) →
      (∀ kp ∈ entries, dget s ("d" ++ kp.1) = dget x ("d" ++ kp.1)) →
      (Adam.stepEntries lr beta1 beta2 eps sq t grads m reg entries v s).map Prod.fst
        = (Adam.stepEntries lr beta1 beta2 eps sq t grads m reg entries w x).map Prod.fst := by
  induction entries with
  | nil => intro v s w x _ _; rfl
  | cons hd rest ih =>
    intro v s w x hvw hsx
    obtain ⟨k0, p0⟩ := hd
    have hk0v := hvw ⟨k0, p0⟩ (List.mem_cons_self _ _)
    have hk0s := hsx ⟨k0, p0⟩ (List.mem_cons_self _ _)
    have hrestv : ∀ (r : Arr), ∀ kp ∈ rest,
        dget (dset v ("d" ++ k0) r) ("d" ++ kp.1)
          = dget (dset w ("d" ++ k0) r) ("d" ++ kp.1) := by
      intro r kp hm
      by_cases hc : ("d" ++ k0 : String) = "d" ++ kp.1
      · rw [← hc, dget_dset_self, dget_dset_self]
      · rw [dget_dset_ne v _ _ _ (fun h => hc h),
          dget_dset_ne w _ _ _ (fun h => hc h)]
        exact hvw kp (List.mem_cons_of_mem _ hm)
    have hrests : ∀ (r : Arr), ∀ kp ∈ rest,
        dget (dset s ("d" ++ k0) r) ("d" ++ kp.1)
          = dget (dset x ("d" ++ k0) r) ("d" ++ kp.1) := by
      intro r kp hm
      by_cases hc : ("d" ++ k0 : String) = "d" ++ kp.1
      · rw [← hc, dget_dset_self, dget_dset_self]
      · rw [dget_dset_ne s _ _ _ (fun h => hc h),
          dget_dset_ne x _ _ _ (fun h => hc h)]
        exact hsx kp (List.mem_cons_of_mem _ hm)
    cases hg0 : dget grads ("d" ++ k0) with
    | none => simp [Adam.stepEntries, hg0]
    | some g0 =>
      cases hv0 : dget v ("d" ++ k0) with
      | none =>
        rw [hv0] at hk0v
        simp [Adam.stepEntries, hg0, hv0, ← hk0v]
      | some v0 =>
        rw [hv0] at hk0v
        cases hs0 : dget s ("d" ++ k0) with
        | none =>
          rw [hs0] at hk0s
          simp [Adam.stepEntries, hg0, hv0, hs0, ← hk0v, ← hk0s]
        | some s0 =>
          rw [hs0] at hk0s
          have hih := ih
            (dset v ("d" ++ k0) (Adam.step lr beta1 beta2 eps sq t m reg k0 p0 g0 v0 s0).2.1)
            (dset s ("d" ++ k0) (Adam.step lr beta1 beta2 eps sq t m reg k0 p0 g0 v0 s0).2.2)
            (dset w ("d" ++ k0) (Adam.step lr beta1 beta2 eps sq t m reg k0 p0 g0 v0 s0).2.1)
            (dset x ("d" ++ k0) (Adam.step lr beta1 beta2 eps sq t m reg k0 p0 g0 v0 s0).2.2)
            (hrestv _) (hrests _)
          simp only [Adam.stepEntries, hg0, hv0, hs0, ← hk0v, ← hk0s]
          cases h1 : Adam.stepEntries lr beta1 beta2 eps sq t grads m reg rest
              (dset v ("d" ++ k0) (Adam.step lr beta1 beta2 eps sq t m reg k0 p0 g0 v0 s0).2.1)
              (dset s ("d" ++ k0) (Adam.step lr beta1 beta2 eps sq t m reg k0 p0 g0 v0 s0).2.2) with
          | none =>
            rw [h1] at hih
            cases h2 : Adam.stepEntries lr beta1 beta2 eps sq t grads m reg rest
                (dset w ("d" ++ k0) (Adam.step lr beta1 beta2 eps sq t m reg k0 p0 g0 v0 s0).2.1)
                (dset x ("d" ++ k0) (Adam.step lr beta1 beta2 eps sq t m reg k0 p0 g0 v0 s0).2.2) with
            | none => rfl
            | some r2 => rw [h2] at hih; simp at hih
          | some r1 =>
            obtain ⟨ps1, v1, s1⟩ := r1
            rw [h1] at hih
            cases h2 : Adam.stepEntries lr beta1 beta2 eps sq t grads m reg rest
                (dset w ("d" ++ k0) (Adam.step lr beta1 beta2 eps sq t m reg k0 p0 g0 v0 s0).2.1)
                (dset x ("d" ++ k0) (Adam.step lr beta1 beta2 eps sq t m reg k0 p0 g0 v0 s0).2.2) with
            | none => rw [h2] at hih; simp at hih
            | some r2 =>
              obtain ⟨ps2, v2, s2⟩ := r2
              rw [h2] at hih
              simp at hih
              simp [hih]

theorem adam_entries_two_step (lr beta1 beta2 eps m : ℚ) (sq : ℚ → ℚ)
    (hb1 : 1 - beta1 ≠ 0) (hb1' : 1 - beta1 ^ 2 ≠ 0)
    (hb2 : 1 - beta2 ≠ 0) (hb2' : 1 - beta2 ^ 2 ≠ 0)
    (grads : Assoc) (reg : Regularizer) (entries : Assoc) :
    ∀ (w x ps₁ v₁ s₁ : Assoc),
      (entries.map Prod.fst).Nodup →
      (∀ kp ∈ entries, dget w ("d" ++ kp.1) = some (zeros kp.2.length)) →
      (∀ kp ∈ entries, dget x ("d" ++ kp.1) = some (zeros kp.2.length)) →
      Adam.stepEntries lr beta1 beta2 eps sq 1 grads m reg entries w x
        = some (ps₁, v₁, s₁) →
      (Adam.stepEntries lr beta1 beta2 eps sq 2 grads m reg entries v₁ s₁).map Prod.fst
        = some ps₁ := by
  induction entries with
  | nil =>
    intro w x ps₁ v₁ s₁ _ _ _ h
    simp only [Adam.stepEntries, Option.some.injEq, Prod.mk.injEq] at h
    rw [← h.1]
    rfl
  | cons hd rest ih =>
    intro w x ps₁ v₁ s₁ hnd hv hs h
    obtain ⟨k0, p0⟩ := hd
    have hv0 : dget w ("d" ++ k0) = some (zeros p0.length) :=
      hv ⟨k0, p0⟩ (List.mem_cons_self _ _)
    have hs0 : dget x ("d" ++ k0) = some (zeros p0.length) :=
      hs ⟨k0, p0⟩ (List.mem_cons_self _ _)
    simp only [Adam.stepEntries] at h
    cases hg0 : dget grads ("d" ++ k0) with
    | none => rw [hg0] at h; exact absurd h (by simp)
    | some g0 =>
      simp only [hg0, hv0, hs0] at h
      cases hrest : Adam.stepEntries lr beta1 beta2 eps sq 1 grads m reg rest
          (dset w ("d" ++ k0)
            (Adam.step lr beta1 beta2 eps sq 1 m reg k0 p0 g0 (zeros p0.length) (zeros p0.length)).2.1)
          (dset x ("d" ++ k0)
            (Adam.step lr beta1 beta2 eps sq 1 m reg k0 p0 g0 (zeros p0.length) (zeros p0.length)).2.2) with
      | none => rw [hrest] at h; exact absurd h (by simp)
      | some r =>
        obtain ⟨ps1, w1, x1⟩ := r
        rw [hrest] at h
        have hps₁ : ps₁ = (k0, (Adam.step lr beta1 beta2 eps sq 1 m reg k0 p0 g0
            (zeros p0.length) (zeros p0.length)).1) :: ps1 := by
          simpa using (congrArg (fun z => z.1) (Option.some.inj h)).symm
        have hv₁ : v₁ = w1 := by
          simpa using (congrArg (fun z => z.2.1) (Option.some.inj h)).symm
        have hs₁ : s₁ = x1 := by
          simpa using (congrArg (fun z => z.2.2) (Option.some.inj h)).symm
        subst hps₁; subst hv₁; subst hs₁
        have hkrest : ∀ kp ∈ rest, ("d" ++ kp.1 : String) ≠ "d" ++ k0 := by
          intro kp hm hc
          have : kp.1 ∈ rest.map Prod.fst := List.mem_map_of_mem Prod.fst hm
          rw [dkey_inj hc] at this
          exact (List.nodup_cons.mp hnd).1 this
        have hkrest' : ∀ kp ∈ rest, ("d" ++ kp.1 : String) ≠ "d" ++ k0 := hkrest
        have hfr := adam_stepEntries_state_frame lr beta1 beta2 eps sq 1 grads
          m reg rest
          (dset w ("d" ++ k0)
            (Adam.step lr beta1 beta2 eps sq 1 m reg k0 p0 g0 (zeros p0.length) (zeros p0.length)).2.1)
          (dset x ("d" ++ k0)
            (Adam.step lr beta1 beta2 eps sq 1 m reg k0 p0 g0 (zeros p0.length) (zeros p0.length)).2.2)
          ps1 v₁ s₁ ("d" ++ k0) hrest hkrest
        have hv₁k : dget v₁ ("d" ++ k0)
            = some ((smul (1 - beta1) g0).take p0.length) := by
          rw [hfr.1, dget_dset_self]
          rw [adam_vnew_first]
        have hs₁k : dget s₁ ("d" ++ k0)
            = some ((smul (1 - beta2) (vsq g0)).take p0.length) := by
          rw [hfr.2, dget_dset_self]
          rw [adam_vnew_first]
        have hvrest : ∀ kp ∈ rest,
            dget (dset w ("d" ++ k0)
              (Adam.step lr beta1 beta2 eps sq 1 m reg k0 p0 g0 (zeros p0.length) (zeros p0.length)).2.1)
              ("d" ++ kp.1) = some (zeros kp.2.length) := by
          intro kp hm
          rw [dget_dset_ne _ _ _ _ (fun hc => hkrest kp hm hc.symm)]
          exact hv kp (List.mem_cons_of_mem _ hm)
        have hsrest : ∀ kp ∈ rest,
            dget (dset x ("d" ++ k0)
              (Adam.step lr beta1 beta2 eps sq 1 m reg k0 p0 g0 (zeros p0.length) (zeros p0.length)).2.2)
              ("d" ++ kp.1) = some (zeros kp.2.length) := by
          intro kp hm
          rw [dget_dset_ne _ _ _ _ (fun hc => hkrest kp hm hc.symm)]
          exact hs kp (List.mem_cons_of_mem _ hm)
        have hih := ih
          (dset w ("d" ++ k0)
            (Adam.step lr beta1 beta2 eps sq 1 m reg k0 p0 g0 (zeros p0.length) (zeros p0.length)).2.1)
          (dset x ("d" ++ k0)
            (Adam.step lr beta1 beta2 eps sq 1 m reg k0 p0 g0 (zeros p0.length) (zeros p0.length)).2.2)
          ps1 v₁ s₁ (List.nodup_cons.mp hnd).2 hvrest hsrest hrest
        have hcong := adam_stepEntries_congr_state lr beta1 beta2 eps sq 2
          grads m reg rest
          (dset v₁ ("d" ++ k0)
            (Adam.step lr beta1 beta2 eps sq 2 m reg k0 p0 g0
              ((smul (1 - beta1) g0).take p0.length)
              ((smul (1 - beta2) (vsq g0)).take p0.length)).2.1)
          (dset s₁ ("d" ++ k0)
            (Adam.step lr beta1 beta2 eps sq 2 m reg k0 p0 g0
              ((smul (1 - beta1) g0).take p0.length)
              ((smul (1 - beta2) (vsq g0)).take p0.length)).2.2)
          v₁ s₁ ?_ ?_
        · simp only [Adam.stepEntries, hg0, hv₁k, hs₁k]
          cases hre : Adam.stepEntries lr beta1 beta2 eps sq 2 grads m reg rest
              (dset v₁ ("d" ++ k0)
                (Adam.step lr beta1 beta2 eps sq 2 m reg k0 p0 g0
                  ((smul (1 - beta1) g0).take p0.length)
                  ((smul (1 - beta2) (vsq g0)).take p0.length)).2.1)
              (dset s₁ ("d" ++ k0)
                (Adam.step lr beta1 beta2 eps sq 2 m reg k0 p0 g0
                  ((smul (1 - beta1) g0).take p0.length)
                  ((smul (1 - beta2) (vsq g0)).take p0.length)).2.2) with
          | none =>
            rw [hre] at hcong
            rw [hih] at hcong
            exact absurd hcong.symm (by simp)
          | some r2 =>
            obtain ⟨ps2, w2, x2⟩ := r2
            rw [hre] at hcong
            rw [hih] at hcong
            have hps2 : ps2 = ps1 := by simpa using hcong
            subst hps2
            simp [adam_step_second lr beta1 beta2 eps m sq hb1 hb1' hb2 hb2' reg k0 p0 g0]
        · intro kp hm
          rw [dget_dset_ne _ _ _ _ (fun hc => hkrest kp hm hc.symm)]
        · intro kp hm
          rw [dget_dset_ne _ _ _ _ (fun hc => hkrest kp hm hc.symm)]

theorem adam_layer_two_step (lr beta1 beta2 eps m : ℚ) (sq : ℚ → ℚ)
    (hb1 : 1 - beta1 ≠ 0) (hb1' : 1 - beta1 ^ 2 ≠ 0)
    (hb2 : 1 - beta2 ≠ 0) (hb2' : 1 - beta2 ^ 2 ≠ 0)
    (reg : Regularizer) (L : Layer)
    (hnd : (L.params.map Prod.fst).Nodup) (L₁ : Layer) (v₁ s₁ : Assoc)
    (h : Adam.stepLayer lr beta1 beta2 eps sq 1 m reg L (initV L.params)
      (initV L.params) = some (L₁, v₁, s₁)) :
    (Adam.stepLayer lr beta1 beta2 eps sq 2 m reg L v₁ s₁).map Prod.fst
      = some L₁ := by
  simp only [Adam.stepLayer] at h ⊢
  cases he : Adam.stepEntries lr beta1 beta2 eps sq 1 L.grads m reg L.params
      (initV L.params) (initV L.params) with
  | none => rw [he] at h; exact absurd h (by simp)
  | some r =>
    obtain ⟨ps, w1, w2⟩ := r
    rw [he] at h
    have hL₁ : L₁ = { params := ps, grads := L.grads } := by
      simpa using (congrArg (fun z => z.1) (Option.some.inj h)).symm
    have hw1 : v₁ = w1 := by
      simpa using (congrArg (fun z => z.2.1) (Option.some.inj h)).symm
    have hw2 : s₁ = w2 := by
      simpa using (congrArg (fun z => z.2.2) (Option.some.inj h)).symm
    subst hL₁; subst hw1; subst hw2
    have hv : ∀ kp ∈ L.params, dget (initV L.params) ("d" ++ kp.1)
        = some (zeros kp.2.length) := by
      intro kp hm
      exact dget_initV L.params kp.1 kp.2 (dget_of_mem_nodup L.params kp hnd hm)
    have h2 := adam_entries_two_step lr beta1 beta2 eps m sq hb1 hb1' hb2 hb2'
      L.grads reg L.params (initV L.params) (initV L.params) ps v₁ s₁ hnd hv hv he
    cases hre : Adam.stepEntries lr beta1 beta2 eps sq 2 L.grads m reg L.params v₁ s₁ with
    | none => rw [hre] at h2; exact absurd h2 (by simp)
    | some r2 =>
      obtain ⟨ps2, q1, q2⟩ := r2
      rw [hre] at h2
      have : ps2 = ps := by simpa using h2
      subst this
      rfl

theorem adam_update_two_step (lr beta1 beta2 eps m : ℚ) (sq : ℚ → ℚ)
    (hb1 : 1 - beta1 ≠ 0) (hb1' : 1 - beta1 ^ 2 ≠ 0)
    (hb2 : 1 - beta2 ≠ 0) (hb2' : 1 - beta2 ^ 2 ≠ 0)
    (reg : Regularizer) (layers : List Layer)
    (hnd : ∀ L ∈ layers, (L.params.map Prod.fst).Nodup)
    (ls₁ : List Layer) (vs₁ ss₁ : List Assoc)
    (h : Adam.update_params lr beta1 beta2 eps sq 1 m reg layers
      (Adam.init_params layers).1 (Adam.init_params layers).2
      = some (ls₁, vs₁, ss₁)) :
    (Adam.update_params lr beta1 beta2 eps sq 2 m reg layers vs₁ ss₁).map Prod.fst
      = some ls₁ := by
  induction layers generalizing ls₁ vs₁ ss₁ with
  | nil =>
    simp only [Adam.init_params, List.map_nil, Adam.update_params,
      Option.some.injEq, Prod.mk.injEq] at h
    rw [← h.1, ← h.2.1, ← h.2.2]
    rfl
  | cons hd rest ih =>
    simp only [Adam.init_params, List.map_cons, Adam.update_params] at h
    cases h1 : Adam.stepLayer lr beta1 beta2 eps sq 1 m reg hd
        (initV hd.params) (initV hd.params) with
    | none => rw [h1] at h; exact absurd h (by simp)
    | some r1 =>
      obtain ⟨hd₁, vh₁, sh₁⟩ := r1
      cases h2 : Adam.update_params lr beta1 beta2 eps sq 1 m reg rest
          (rest.map fun L => initV L.params) (rest.map fun L => initV L.params) with
      | none => rw [h1, h2] at h; exact absurd h (by simp)
      | some r2 =>
        obtain ⟨rest₁, vrest₁, srest₁⟩ := r2
        rw [h1, h2] at h
        have hls : ls₁ = hd₁ :: rest₁ := by
          simpa using (congrArg (fun z => z.1) (Option.some.inj h)).symm
        have hvs : vs₁ = vh₁ :: vrest₁ := by
          simpa using (congrArg (fun z => z.2.1) (Option.some.inj h)).symm
        have hss : ss₁ = sh₁ :: srest₁ := by
          simpa using (congrArg (fun z => z.2.2) (Option.some.inj h)).symm
        subst hls; subst hvs; subst hss
        have hlay := adam_layer_two_step lr beta1 beta2 eps m sq hb1 hb1' hb2
          hb2' reg hd (hnd hd (List.mem_cons_self _ _)) hd₁ vh₁ sh₁ h1
        have hrest := ih (fun L hm => hnd L (List.mem_cons_of_mem _ hm))
          rest₁ vrest₁ srest₁ (by simpa [Adam.init_params] using h2)
        simp only [Adam.update_params]
        cases hl2 : Adam.stepLayer lr beta1 beta2 eps sq 2 m reg hd vh₁ sh₁ with
        | none => rw [hl2] at hlay; exact absurd hlay (by simp)
        | some q1 =>
          obtain ⟨hd₂, wv, ws⟩ := q1
          rw [hl2] at hlay
          have : hd₂ = hd₁ := by simpa using hlay
          subst this
          cases hu2 : Adam.update_params lr beta1 beta2 eps sq 2 m reg rest
              vrest₁ srest₁ with
          | none => rw [hu2] at hrest; exact absurd hrest (by simp)
          | some q2 =>
            obtain ⟨rest₂, wvs, wss⟩ := q2
            rw [hu2] at hrest
            have : rest₂ = rest₁ := by simpa using hrest
            subst this
            rfl

/-- C8 counterexample: the claim says two `update_params` calls with
identical inputs and incremented `step_index` produce DIFFERENT parameter
results for Momentum and Adam.  At lr=1, beta=1/2 (and beta1=beta2=1/2,
eps=1 for Adam), one layer {"W": [0]} with gradient {"dW": [1]}: the call at
t=1 from freshly initialized state and the call at t=2 with the carried
state produce exactly the same parameter result ([-1] for Momentum, [-1/2]
for Adam) — the bias correction cancels the accumulation — even though the
moment buffers do change (1/2 to 3/4). -/
theorem C8_counterexample :
    Momentum.update_params 1 (1/2) 1 1 Regularizer.none
      [⟨[("W", [0])], [("dW", [1])]⟩]
      (Momentum.init_params [⟨[("W", [0])], [("dW", [1])]⟩])
      = some ([⟨[("W", [-1])], [("dW", [1])]⟩], [[("dW", [1/2])]])
    ∧ Momentum.update_params 1 (1/2) 2 1 Regularizer.none
      [⟨[("W", [0])], [("dW", [1])]⟩] [[("dW", [1/2])]]
      = some ([⟨[("W", [-1])], [("dW", [1])]⟩], [[("dW", [3/4])]])
    ∧ ([[("dW", ([1/2] : Arr))]] : List Assoc) ≠ [[("dW", [3/4])]]
    ∧ Adam.update_params 1 (1/2) (1/2) 1 Rat.sqrt 1 1 Regularizer.none
      [⟨[("W", [0])], [("dW", [1])]⟩]
      (Adam.init_params [⟨[("W", [0])], [("dW", [1])]⟩]).1
      (Adam.init_params [⟨[("W", [0])], [("dW", [1])]⟩]).2
      = some ([⟨[("W", [-1/2])], [("dW", [1])]⟩], [[("dW", [1/2])]], [[("dW", [1/2])]])
    ∧ Adam.update_params 1 (1/2) (1/2) 1 Rat.sqrt 2 1 Regularizer.none
      [⟨[("W", [0])], [("dW", [1])]⟩] [[("dW", [1/2])]] [[("dW", [1/2])]]
      = some ([⟨[("W", [-1/2])], [("dW", [1])]⟩], [[("dW", [3/4])]], [[("dW", [3/4])]]) := by
  have h1 : Rat.sqrt (1 : ℚ) = 1 := by
    rw [show (1 : ℚ) = 1 * 1 by norm_num, Rat.sqrt_eq]
    norm_num
  refine ⟨?_, ?_, ?_, ?_, ?_⟩
  · simp [Momentum.update_params, Momentum.stepLayer, Momentum.stepEntries,
      Momentum.step, Momentum.init_params, initV, dget, dset, withDecay,
      vadd, vsub, smul, vdivS, zeros]
    norm_num
  · simp [Momentum.update_params, Momentum.stepLayer, Momentum.stepEntries,
      Momentum.step, dget, dset, withDecay, vadd, vsub, smul, vdivS]
    norm_num
  · intro hcontra
    simp at hcontra
    norm_num at hcontra
  · simp [Adam.update_params, Adam.stepLayer, Adam.stepEntries, Adam.step,
      Adam.init_params, initV, dget, dset, withDecay, vadd, vsub, smul,
      vdivS, vsq, zeros]
    norm_num [h1]
  · simp [Adam.update_params, Adam.stepLayer, Adam.stepEntries, Adam.step,
      dget, dset, withDecay, vadd, vsub, smul, vdivS, vsq]
    norm_num [h1]

/-- C8 (amended): calling `update_params` twice with identical inputs but
`step_index` incremented (1 then 2, from freshly initialized state) produces
IDENTICAL parameter results for all three variants.  Plain's update takes no
state at all (re-applying it to the same arguments is literally the same
call); for Momentum and Adam the internal moment buffers do accumulate
across the calls, but the bias correction exactly cancels the accumulation
when the gradients are unchanged, so the layers come out the same. -/
theorem C8_repeat_call_identical_params (lr beta beta1 beta2 eps m : ℚ)
    (sq : ℚ → ℚ) (reg : Regularizer) (layers : List Layer)
    (hbm : 1 - beta ≠ 0) (hbm2 : 1 - beta ^ 2 ≠ 0)
    (hb1 : 1 - beta1 ≠ 0) (hb1' : 1 - beta1 ^ 2 ≠ 0)
    (hb2 : 1 - beta2 ≠ 0) (hb2' : 1 - beta2 ^ 2 ≠ 0)
    (hnd : ∀ L ∈ layers, (L.params.map Prod.fst).Nodup) :
    GradientDescent.update_params lr m reg layers
      = GradientDescent.update_params lr m reg layers
    ∧ (∀ ls₁ vs₁, Momentum.update_params lr beta 1 m reg layers
          (Momentum.init_params layers) = some (ls₁, vs₁) →
        (Momentum.update_params lr beta 2 m reg layers vs₁).map Prod.fst
          = some ls₁)
    ∧ (∀ ls₁ vs₁ ss₁, Adam.update_params lr beta1 beta2 eps sq 1 m reg layers
          (Adam.init_params layers).1 (Adam.init_params layers).2
          = some (ls₁, vs₁, ss₁) →
        (Adam.update_params lr beta1 beta2 eps sq 2 m reg layers vs₁ ss₁).map Prod.fst
          = some ls₁) :=
  ⟨rfl,
   fun ls₁ vs₁ h => mom_update_two_step lr beta m hbm hbm2 reg layers hnd ls₁ vs₁ h,
   fun ls₁ vs₁ ss₁ h => adam_update_two_step lr beta1 beta2 eps m sq hb1 hb1'
     hb2 hb2' reg layers hnd ls₁ vs₁ ss₁ h⟩

/-- C8 witness: the amended statement at lr=1, beta=beta1=beta2=1/2, eps=1,
one layer {"W": [0]} with gradient {"dW": [1]}: the t=2 call on the carried
state reproduces the t=1 layer result for Momentum and Adam. -/
theorem C8_repeat_call_identical_params_witness :
    (1 : ℚ) - 1/2 ≠ 0
    ∧ (1 : ℚ) - (1/2) ^ 2 ≠ 0
    ∧ (Momentum.update_params 1 (1/2) 2 1 Regularizer.none
        [⟨[("W", [0])], [("dW", [1])]⟩] [[("dW", [1/2])]]).map Prod.fst
      = some [⟨[("W", [-1])], [("dW", [1])]⟩]
    ∧ (Adam.update_params 1 (1/2) (1/2) 1 Rat.sqrt 2 1 Regularizer.none
        [⟨[("W", [0])], [("dW", [1])]⟩] [[("dW", [1/2])]] [[("dW", [1/2])]]).map Prod.fst
      = some [⟨[("W", [-1/2])], [("dW", [1])]⟩] := by
  have hnd : ∀ L ∈ ([⟨[("W", [0])], [("dW", [1])]⟩] : List Layer),
      (L.params.map Prod.fst).Nodup := by
    intro L hL
    rcases List.mem_singleton.mp hL with rfl
    simp
  have hthm := C8_repeat_call_identical_params 1 (1/2) (1/2) (1/2) 1 1
    Rat.sqrt Regularizer.none [⟨[("W", [0])], [("dW", [1])]⟩]
    (by norm_num) (by norm_num) (by norm_num) (by norm_num) (by norm_num)
    (by norm_num) hnd
  have hm1 : Momentum.update_params 1 (1/2) 1 1 Regularizer.none
      [⟨[("W", [0])], [("dW", [1])]⟩]
      (Momentum.init_params [⟨[("W", [0])], [("dW", [1])]⟩])
      = some ([⟨[("W", [-1])], [("dW", [1])]⟩], [[("dW", [1/2])]]) := by
    simp [Momentum.update_params, Momentum.stepLayer, Momentum.stepEntries,
      Momentum.step, Momentum.init_params, initV, dget, dset, withDecay,
      vadd, vsub, smul, vdivS, zeros]
    norm_num
  have ha1 : Rat.sqrt (1 : ℚ) = 1 := by
    rw [show (1 : ℚ) = 1 * 1 by norm_num, Rat.sqrt_eq]
    norm_num
  have hadam1 : Adam.update_params 1 (1/2) (1/2) 1 Rat.sqrt 1 1 Regularizer.none
      [⟨[("W", [0])], [("dW", [1])]⟩]
      (Adam.init_params [⟨[("W", [0])], [("dW", [1])]⟩]).1
      (Adam.init_params [⟨[("W", [0])], [("dW", [1])]⟩]).2
      = some ([⟨[("W", [-1/2])], [("dW", [1])]⟩], [[("dW", [1/2])]], [[("dW", [1/2])]]) := by
    simp [Adam.update_params, Adam.stepLayer, Adam.stepEntries, Adam.step,
      Adam.init_params, initV, dget, dset, withDecay, vadd, vsub, smul,
      vdivS, vsq, zeros]
    norm_num [ha1]
  refine ⟨by norm_num, by norm_num, ?_, ?_⟩
  · exact hthm.2.1 [⟨[("W", [-1])], [("dW", [1])]⟩] [[("dW", [1/2])]] hm1
  · exact hthm.2.2 [⟨[("W", [-1/2])], [("dW", [1])]⟩] [[("dW", [1/2])]]
      [[("dW", [1/2])]] hadam1
